import Mathlib

/-!
# Verification of the yaml-to-readme summarization pipeline (cmd/root.go)

Shallow embedding of the core pipeline of `sebrandon1/yaml-to-readme`:
directory discovery (`findYAMLFiles`), summary normalization (`cleanSummary`,
`truncateToSentences`), the existing-summary index (`parseExistingSummaries`,
`parseSummaryLines`, `readLinesFromFile`), the work partitioner / executor
(`processYAMLFiles`), and the aggregator/renderer (`groupSummariesByDir`,
`writeMarkdownSummary`).

Modelling conventions:
* Go strings are embedded as `List Char` (`Str`).  All the delimiters the
  program searches for (`"["`, `"]"`, `": "`, `"\n"`, ...) are ASCII, and Go
  only ever slices at byte offsets returned by `strings.Index` for those
  ASCII patterns; at such offsets byte slicing and rune (character) slicing
  coincide, so the character-list model is faithful.
* Go `map[string]string` is embedded as an association list `GoMap` with
  overwrite-on-insert (`mapInsert`); a missing key reads as the zero value
  `""` (`mapGetD`), exactly as in Go.
* File-system effects are made explicit: file contents are passed as values,
  the file written by `writeMarkdownSummary` is returned as a value, and the
  directory tree walked by `filepath.Walk` is an inductive `FSTree`.
-/

namespace YamlToReadme

/-- A Go string, embedded as its list of characters. -/
abbrev Str := List Char

/-- Coerce a Lean string literal into the model. -/
def str (s : String) : Str := s.data

/-- The newline character `'\n'`. -/
def nl : Char := Char.ofNat 10

/-- The carriage-return character `'\r'`. -/
def cr : Char := Char.ofNat 13

/-- The apostrophe character `'''`. -/
def apos : Char := Char.ofNat 39

/-- Go `unicode.IsSpace`: the Unicode white-space characters.
(Latin-1 cases `'\t' '\n' '\v' '\f' '\r' ' ' U+0085 U+00A0` plus the
White_Space code points above Latin-1.) -/
def goIsSpace (c : Char) : Bool :=
  c == ' ' || c == Char.ofNat 9 || c == nl || c == Char.ofNat 11 ||
  c == Char.ofNat 12 || c == cr || c == Char.ofNat 0x85 || c == Char.ofNat 0xA0 ||
  c == Char.ofNat 0x1680 || (0x2000 ≤ c.toNat && c.toNat ≤ 0x200a) ||
  c == Char.ofNat 0x2028 || c == Char.ofNat 0x2029 || c == Char.ofNat 0x202f ||
  c == Char.ofNat 0x205f || c == Char.ofNat 0x3000

/-- Go `strings.TrimSpace`: drop leading and trailing white space. -/
def goTrimSpace (s : Str) : Str :=
  ((s.dropWhile goIsSpace).reverse.dropWhile goIsSpace).reverse

/-- `leadsWith s p`: Go `strings.HasPrefix(s, p)` — `p` is a leading segment of `s`. -/
def leadsWith (s p : Str) : Bool :=
  match p, s with
  | [], _ => true
  | _ :: _, [] => false
  | b :: bs, a :: as => a == b && leadsWith as bs

/-- `endsWith s p`: Go `strings.HasSuffix(s, p)` — `p` is a trailing segment of `s`. -/
def endsWith (s p : Str) : Bool := leadsWith s.reverse p.reverse

/-- Go `strings.Split(s, sep)` for a one-character separator: the parts of
`s` between occurrences of `sep` (never empty as a list of parts). -/
def goSplit (sep : Char) : Str → List Str
  | [] => [[]]
  | c :: rest =>
    match goSplit sep rest with
    | [] => [[]]
    | p :: ps => if c == sep then [] :: p :: ps else (c :: p) :: ps

/-- Go `strings.Join(parts, sep)`. -/
def joinWith (sep : Str) : List Str → Str
  | [] => []
  | [x] => x
  | x :: y :: ys => x ++ sep ++ joinWith sep (y :: ys)

/-- First index at which the pattern `pat` occurs in `s` (`none` if it does
not occur).  This is Go `strings.Index` with `-1` replaced by `none`. -/
def findSub : Str → Str → Option Nat
  | [], pat => if leadsWith [] pat then some 0 else none
  | a :: rest, pat =>
    if leadsWith (a :: rest) pat then some 0
    else (findSub rest pat).map (fun n => n + 1)

/-- Go `strings.Index(s, pat)`: first byte index of `pat` in `s`, or `-1`. -/
def goIndex (s pat : Str) : Int :=
  match findSub s pat with
  | some n => (n : Int)
  | none => -1

/-- Go `strings.Contains(s, pat)`. -/
def goContains (s pat : Str) : Bool := (findSub s pat).isSome

/-- Go slice expression `s[a:b]` (at character-boundary offsets). -/
def slice (s : Str) (a b : Nat) : Str := (s.drop a).take (b - a)

/-- Go `strings.TrimSuffix(s, p)`. -/
def goTrimSuffix (s p : Str) : Str :=
  if endsWith s p then s.take (s.length - p.length) else s

/-- Go byte-wise `<` on strings (lexicographic; UTF-8 byte order coincides
with code-point order). -/
def strLt : Str → Str → Bool
  | [], [] => false
  | [], _ :: _ => true
  | _ :: _, [] => false
  | a :: as, b :: bs => if a < b then true else if b < a then false else strLt as bs

/-- Reflexive closure of `strLt`. -/
def strLe (a b : Str) : Bool := strLt a b || a == b

/-- Insertion of one element into a `le`-sorted list. -/
def insertLe (le : α → α → Bool) (x : α) : List α → List α
  | [] => [x]
  | y :: ys => if le x y then x :: y :: ys else y :: insertLe le x ys

/-- Insertion sort; models Go's `sort.Strings` / `sort.Slice` (the keys the
program sorts are distinct, so stability is irrelevant). -/
def sortBy (le : α → α → Bool) : List α → List α
  | [] => []
  | x :: xs => insertLe le x (sortBy le xs)

/-- `sort.Strings`. -/
def sortStrs : List Str → List Str := sortBy strLe

/-- A Go `map[string]string`, as an association list with unique keys. -/
abbrev GoMap := List (Str × Str)

/-- Go map read `m[k]` returning `(value, ok)` (`none` models `ok = false`). -/
def mapLookup : GoMap → Str → Option Str
  | [], _ => none
  | p :: ps, k => if p.1 == k then some p.2 else mapLookup ps k

/-- Go map read `m[k]` in value position: missing keys read as `""`. -/
def mapGetD (m : GoMap) (k : Str) : Str := (mapLookup m k).getD []

/-- Go map write `m[k] = v`: overwrite the entry that carries the key if one
exists, otherwise add the key (a Go map holds at most one entry per key, so
this association-list update is an exact model). -/
def mapInsert : GoMap → Str → Str → GoMap
  | [], k, v => [(k, v)]
  | p :: ps, k, v => if p.1 == k then (k, v) :: ps else p :: mapInsert ps k v

/-! ## Summary Normalizer: `truncateToSentences` (cmd/root.go:134-150) -/

/-- A sentence terminator: `'.'`, `'!'` or `'?'` (cmd/root.go:138). -/
def isTerminator (c : Char) : Bool := c == '.' || c == '!' || c == '?'

/-- Number of sentence terminators in a string. -/
def countTerm (s : Str) : Nat := (s.filter isTerminator).length

/-- The loop of `truncateToSentences` (cmd/root.go:137-145): scan the text,
remembering in `e` the position just after the most recent terminator, and
stop (`break`) as soon as `count` reaches `n`. -/
def truncLoop (n : Nat) : Str → Nat → Nat → Nat → Nat
  | [], _, _, e => e
  | c :: rest, i, count, e =>
    if isTerminator c then
      if count + 1 == n then i + 1
      else truncLoop n rest (i + 1) (count + 1) (i + 1)
    else truncLoop n rest (i + 1) count e

/-- `truncateToSentences` (cmd/root.go:134-150): keep the text up to the
`n`-th sentence terminator; if `end` stayed `0` (no terminator at all),
return the whole text; both results are `TrimSpace`d. -/
def truncateToSentences (text : Str) (n : Nat) : Str :=
  if truncLoop n text 0 0 0 > 0 then goTrimSpace (text.take (truncLoop n text 0 0 0))
  else goTrimSpace text

@[simp] theorem countTerm_nil : countTerm [] = 0 := rfl

theorem countTerm_cons_term {c : Char} (hc : isTerminator c = true) (l : Str) :
    countTerm (c :: l) = countTerm l + 1 := by
  simp [countTerm, List.filter_cons, hc]

theorem countTerm_cons_nonterm {c : Char} (hc : isTerminator c = false) (l : Str) :
    countTerm (c :: l) = countTerm l := by
  simp [countTerm, List.filter_cons, hc]

/-! Lemmas about `truncLoop`. -/

theorem truncLoop_no_term (n : Nat) :
    ∀ (l : Str) (i count e : Nat), countTerm l = 0 → truncLoop n l i count e = e := by
  intro l
  induction l with
  | nil => intro i count e _; rfl
  | cons c rest ih =>
    intro i count e h
    have hc : isTerminator c = false := by
      by_contra hcc
      simp only [Bool.not_eq_false] at hcc
      simp [countTerm, List.filter, hcc] at h
    have hrest : countTerm rest = 0 := by
      simpa [countTerm, List.filter, hc] using h
    simp [truncLoop, hc, ih i.succ count e hrest]

theorem truncLoop_shift (n : Nat) :
    ∀ (l : Str) (count : Nat), countTerm l ≠ 0 →
      ∀ (i e : Nat), truncLoop n l i count e = i + truncLoop n l 0 count 0 := by
  intro l
  induction l with
  | nil => intro count h; simp [countTerm] at h
  | cons c rest ih =>
    intro count h i e
    by_cases hc : isTerminator c = true
    · by_cases hn : count + 1 == n
      · simp [truncLoop, hc, hn]
      · by_cases hr : countTerm rest = 0
        · simp [truncLoop, hc, hn, truncLoop_no_term n rest _ _ _ hr]
        · have h1 := ih (count + 1) hr (i + 1) (i + 1)
          have h2 := ih (count + 1) hr 1 1
          simp only [truncLoop, hc, if_true, hn, if_false, Bool.false_eq_true]
          rw [h1, h2]
          omega
    · have hr : countTerm rest ≠ 0 := by
        simp only [Bool.not_eq_true] at hc
        simpa [countTerm, List.filter, hc] using h
      have h1 := ih count hr (i + 1) e
      have h2 := ih count hr 1 0
      simp only [truncLoop, hc, Bool.false_eq_true, if_false]
      rw [h1, h2]
      omega

theorem truncLoop_take (n : Nat) :
    ∀ (l : Str) (count : Nat), count < n →
      countTerm (l.take (truncLoop n l 0 count 0)) = min (n - count) (countTerm l) := by
  intro l
  induction l with
  | nil => intro count _; simp [truncLoop]
  | cons c rest ih =>
    intro count hcount
    by_cases hc : isTerminator c = true
    · by_cases hn : count + 1 = n
      · have hbeq : (count + 1 == n) = true := by simpa using hn
        have hres : truncLoop n (c :: rest) 0 count 0 = 1 := by
          simp [truncLoop, hc, hbeq]
        rw [hres, List.take_succ_cons, List.take_zero,
          countTerm_cons_term hc, countTerm_cons_term hc, countTerm_nil]
        omega
      · have hbeq : (count + 1 == n) = false := by simpa using hn
        have hres : truncLoop n (c :: rest) 0 count 0
            = truncLoop n rest 1 (count + 1) 1 := by
          simp [truncLoop, hc, hbeq]
        by_cases hr : countTerm rest = 0
        · rw [hres, truncLoop_no_term n rest 1 (count + 1) 1 hr,
            List.take_succ_cons, List.take_zero,
            countTerm_cons_term hc, countTerm_cons_term hc, countTerm_nil]
          omega
        · have hlt : count + 1 < n := by omega
          have ihr := ih (count + 1) hlt
          rw [hres, truncLoop_shift n rest (count + 1) hr 1 1,
            Nat.add_comm 1 (truncLoop n rest 0 (count + 1) 0),
            List.take_succ_cons, countTerm_cons_term hc, countTerm_cons_term hc,
            ihr]
          omega
    · have hc' : isTerminator c = false := by simpa using hc
      have hres : truncLoop n (c :: rest) 0 count 0 = truncLoop n rest 1 count 0 := by
        simp [truncLoop, hc']
      by_cases hr : countTerm rest = 0
      · rw [hres, truncLoop_no_term n rest 1 count 0 hr, List.take_zero,
          countTerm_nil, countTerm_cons_nonterm hc']
        omega
      · have ihr := ih count hcount
        rw [hres, truncLoop_shift n rest count hr 1 0,
          Nat.add_comm 1 (truncLoop n rest 0 count 0), List.take_succ_cons,
          countTerm_cons_nonterm hc', countTerm_cons_nonterm hc', ihr]

theorem space_not_term (c : Char) (h : goIsSpace c = true) : isTerminator c = false := by
  rcases Bool.eq_false_or_eq_true (isTerminator c) with ht | hf
  · exfalso
    have h3 : (c = '.' ∨ c = '!') ∨ c = '?' := by
      simpa only [isTerminator, Bool.or_eq_true, beq_iff_eq] using ht
    rcases h3 with (rfl | rfl) | rfl <;> exact absurd h (by decide)
  · exact hf

theorem countTerm_dropWhile_goIsSpace (l : Str) :
    countTerm (l.dropWhile goIsSpace) = countTerm l := by
  induction l with
  | nil => rfl
  | cons c rest ih =>
    by_cases hc : goIsSpace c = true
    · rw [List.dropWhile_cons]
      simp only [hc, if_true]
      rw [ih, countTerm_cons_nonterm (space_not_term c hc)]
    · rw [List.dropWhile_cons]
      simp only [hc, if_false, Bool.false_eq_true]

theorem countTerm_reverse (l : Str) : countTerm l.reverse = countTerm l := by
  simp [countTerm, List.filter_reverse]

theorem countTerm_trim (l : Str) : countTerm (goTrimSpace l) = countTerm l := by
  unfold goTrimSpace
  rw [countTerm_reverse, countTerm_dropWhile_goIsSpace, countTerm_reverse,
    countTerm_dropWhile_goIsSpace]

/-- Central truncation law of the code: for `n ≥ 1` the returned text
contains exactly `min n (countTerm text)` sentence terminators. -/
theorem truncateToSentences_countTerm (text : Str) (n : Nat) (hn : 1 ≤ n) :
    countTerm (truncateToSentences text n) = min n (countTerm text) := by
  by_cases h0 : countTerm text = 0
  · unfold truncateToSentences
    rw [truncLoop_no_term n text 0 0 0 h0, if_neg (by omega), countTerm_trim, h0]
    simp
  · have htake := truncLoop_take n text 0 hn
    simp only [Nat.sub_zero] at htake
    have hpos : truncLoop n text 0 0 0 > 0 := by
      rcases Nat.eq_zero_or_pos (truncLoop n text 0 0 0) with hz | hp
      · rw [hz] at htake
        simp only [List.take_zero, countTerm_nil] at htake
        omega
      · exact hp
    unfold truncateToSentences
    rw [if_pos hpos, countTerm_trim]
    exact htake

/-- C1 counterexample: the input contains a single sentence terminator
(fewer than 2), yet `truncateToSentences` with budget 2 does not return the
input unmodified — the text after the last terminator is dropped. -/
theorem truncateToSentences_drops_tail_cx :
    countTerm (str "One. two") < 2 ∧
    truncateToSentences (str "One. two") 2 ≠ str "One. two" ∧
    truncateToSentences (str "One. two") 2 = str "One." := by
  decide

/-- C1 (amended): with budget 2 the truncation step returns a result
containing exactly `min 2 t` sentence terminators, where `t` is the number
of terminators in the input (hence at most 2, and exactly 2 whenever the
input has at least 2); with no terminator at all the input is returned
(trimmed); in every case the result is a trimmed initial segment of the
input, so with exactly one terminator the text after it is dropped. -/
theorem truncateToSentences_two_law (text : Str) :
    countTerm (truncateToSentences text 2) = min 2 (countTerm text) ∧
    (countTerm text = 0 → truncateToSentences text 2 = goTrimSpace text) ∧
    (∃ k, truncateToSentences text 2 = goTrimSpace (text.take k)) := by
  refine ⟨truncateToSentences_countTerm text 2 (by omega), ?_, ?_⟩
  · intro h0
    unfold truncateToSentences
    rw [truncLoop_no_term 2 text 0 0 0 h0, if_neg (by omega)]
  · unfold truncateToSentences
    by_cases hpos : truncLoop 2 text 0 0 0 > 0
    · exact ⟨truncLoop 2 text 0 0 0, by rw [if_pos hpos]⟩
    · refine ⟨text.length, ?_⟩
      rw [if_neg hpos, List.take_length]

/-! ## A toolkit of lemmas about the Go string helpers -/

theorem leadsWith_iff (s p : Str) : leadsWith s p = true ↔ ∃ t, s = p ++ t := by
  induction p generalizing s with
  | nil => simp [leadsWith]
  | cons b bs ih =>
    cases s with
    | nil => simp [leadsWith]
    | cons a as =>
      simp only [leadsWith, Bool.and_eq_true, beq_iff_eq, ih, List.cons_append]
      constructor
      · rintro ⟨rfl, t, rfl⟩; exact ⟨t, rfl⟩
      · rintro ⟨t, h⟩
        injection h with h1 h2
        exact ⟨h1, t, h2⟩

theorem leadsWith_append_self (p t : Str) : leadsWith (p ++ t) p = true :=
  (leadsWith_iff (p ++ t) p).mpr ⟨t, rfl⟩

theorem leadsWith_head_ne {a b : Char} (as bs : Str) (h : a ≠ b) :
    leadsWith (a :: as) (b :: bs) = false := by
  simp [leadsWith, h]

theorem findSub_head {s pat : Str} (h : leadsWith s pat = true) :
    findSub s pat = some 0 := by
  cases s with
  | nil => simp [findSub, h]
  | cons a rest => simp [findSub, h]

theorem findSub_cons_neg {a : Char} {s pat : Str} (h : leadsWith (a :: s) pat = false) :
    findSub (a :: s) pat = (findSub s pat).map (fun n => n + 1) := by
  simp [findSub, h]

/-- Finding a single character: the first occurrence is right after a
character-free block. -/
theorem findSub_single {c : Char} :
    ∀ (xs : Str) (ys : Str), c ∉ xs → findSub (xs ++ c :: ys) [c] = some xs.length := by
  intro xs
  induction xs with
  | nil =>
    intro ys _
    exact findSub_head (by simp [leadsWith])
  | cons a as ih =>
    intro ys hmem
    have hne : a ≠ c := by
      intro hcontra
      exact hmem (by rw [hcontra]; exact List.mem_cons_self c as)
    rw [List.cons_append, findSub_cons_neg (leadsWith_head_ne _ _ hne),
      ih ys (fun hc => hmem (List.mem_cons_of_mem a hc))]
    rfl

/-- Finding a two-character pattern whose first character does not occur in
the block before it. -/
theorem findSub_pair {c1 c2 : Char} :
    ∀ (xs : Str) (ys : Str), c1 ∉ xs →
      findSub (xs ++ c1 :: c2 :: ys) [c1, c2] = some xs.length := by
  intro xs
  induction xs with
  | nil =>
    intro ys _
    exact findSub_head (by simp [leadsWith])
  | cons a as ih =>
    intro ys hmem
    have hne : a ≠ c1 := by
      intro hcontra
      exact hmem (by rw [hcontra]; exact List.mem_cons_self c1 as)
    rw [List.cons_append, findSub_cons_neg (leadsWith_head_ne _ _ hne),
      ih ys (fun hc => hmem (List.mem_cons_of_mem a hc))]
    rfl

/-- A planted pattern is always found (at some position). -/
theorem findSub_isSome (l1 pat l2 : Str) :
    (findSub (l1 ++ pat ++ l2) pat).isSome = true := by
  induction l1 with
  | nil => simp [findSub_head (leadsWith_append_self pat l2)]
  | cons a as ih =>
    rw [List.cons_append, List.cons_append]
    by_cases h : leadsWith (a :: (as ++ pat ++ l2)) pat = true
    · rw [findSub_head h]
      rfl
    · rw [findSub_cons_neg (by simpa using h)]
      cases hfs : findSub (as ++ pat ++ l2) pat with
      | none => rw [hfs] at ih; simp at ih
      | some n => simp

theorem mapLookup_nil (k : Str) : mapLookup [] k = none := rfl

theorem mapLookup_insert (m : GoMap) (k v k' : Str) :
    mapLookup (mapInsert m k v) k' = if k' = k then some v else mapLookup m k' := by
  induction m with
  | nil =>
    by_cases h : k' = k
    · subst h
      simp [mapInsert, mapLookup]
    · have hb : (k == k') = false := by
        simp only [beq_eq_false_iff_ne, ne_eq]
        exact fun hc => h hc.symm
      simp [mapInsert, mapLookup, hb, h]
  | cons p ps ih =>
    by_cases hp : (p.1 == k) = true
    · have hp' : p.1 = k := by simpa using hp
      by_cases h : k' = k
      · subst h
        simp [mapInsert, hp, mapLookup]
      · have hb : (k == k') = false := by
          simp only [beq_eq_false_iff_ne, ne_eq]
          exact fun hc => h hc.symm
        have hpb : (p.1 == k') = false := by rw [hp']; exact hb
        simp [mapInsert, hp, mapLookup, hb, hpb, h]
    · have hpf : (p.1 == k) = false := by simpa using hp
      by_cases hq : (p.1 == k') = true
      · have h : ¬(k' = k) := by
          intro hc
          subst hc
          rw [hq] at hpf
          exact absurd hpf (by simp)
        simp [mapInsert, hpf, mapLookup, hq, h]
      · have hqf : (p.1 == k') = false := by simpa using hq
        simp [mapInsert, hpf, mapLookup, hqf, ih]

/-! ## Summary Normalizer: `cleanSummary` (cmd/root.go:75-94) -/

/-- The preamble marker `"Here's a breakdown"` (cmd/root.go:86). -/
def heresBreakdown : Str := str "Here" ++ [apos] ++ str "s a breakdown"

/-- The preamble marker `"The following"` (cmd/root.go:87). -/
def theFollowing : Str := str "The following"

/-- The marker test of `cleanSummary` (cmd/root.go:83-88), in the order the
code checks the markers. -/
def isSkippedLine (t : Str) : Bool :=
  leadsWith t (str "#") || leadsWith t (str "**") || leadsWith t (str "-") ||
  leadsWith t heresBreakdown || leadsWith t theFollowing || leadsWith t (str "* ")

/-- The loop of `cleanSummary` (cmd/root.go:78-92): trim each line, drop
blank and marker lines, keep the rest. -/
def cleanLines : List Str → List Str
  | [] => []
  | line :: rest =>
    let trimmed := goTrimSpace line
    if trimmed == [] then cleanLines rest
    else if isSkippedLine trimmed then cleanLines rest
    else trimmed :: cleanLines rest

/-- `cleanSummary` (cmd/root.go:75-94): split on newlines, filter the lines,
join the survivors with single spaces. -/
def cleanSummary (summary : Str) : Str :=
  joinWith (str " ") (cleanLines (goSplit nl summary))

/-- The dropped-line predicate exactly as the specification words it: a line
is dropped when its trimmed form is blank or begins with `"#"`, `"**"`,
`"-"`, `"* "`, `"Here's a breakdown"` or `"The following"`. -/
def droppedLineSpec (t : Str) : Bool :=
  t == [] || leadsWith t (str "#") || leadsWith t (str "**") || leadsWith t (str "-") ||
  leadsWith t (str "* ") || leadsWith t heresBreakdown || leadsWith t theFollowing

theorem isSkippedLine_eq_droppedLineSpec (t : Str) (h : (t == []) = false) :
    isSkippedLine t = droppedLineSpec t := by
  unfold isSkippedLine droppedLineSpec
  rw [h]
  cases leadsWith t (str "#") <;> cases leadsWith t (str "**") <;>
    cases leadsWith t (str "-") <;> cases leadsWith t (str "* ") <;>
    cases leadsWith t heresBreakdown <;> cases leadsWith t theFollowing <;> rfl

theorem cleanLines_eq_filter (ls : List Str) :
    cleanLines ls = (ls.map goTrimSpace).filter (fun t => !droppedLineSpec t) := by
  induction ls with
  | nil => rfl
  | cons line rest ih =>
    show cleanLines (line :: rest) = _
    by_cases h0 : (goTrimSpace line == []) = true
    · have hd : droppedLineSpec (goTrimSpace line) = true := by
        unfold droppedLineSpec
        rw [h0]
        rfl
      simp only [cleanLines, h0, if_true, List.map_cons, List.filter_cons, hd,
        Bool.not_true, Bool.false_eq_true, if_false]
      exact ih
    · have h0' : (goTrimSpace line == []) = false := by simpa using h0
      rw [show cleanLines (line :: rest)
          = if (goTrimSpace line == []) = true then cleanLines rest
            else if isSkippedLine (goTrimSpace line) then cleanLines rest
            else goTrimSpace line :: cleanLines rest from rfl]
      rw [isSkippedLine_eq_droppedLineSpec _ h0']
      by_cases hs : droppedLineSpec (goTrimSpace line) = true
      · simp only [h0', Bool.false_eq_true, if_false, hs, if_true,
          List.map_cons, List.filter_cons, Bool.not_true]
        exact ih
      · have hs' : droppedLineSpec (goTrimSpace line) = false := by simpa using hs
        simp only [h0', Bool.false_eq_true, if_false, hs', List.map_cons,
          List.filter_cons, Bool.not_false, if_true]
        rw [ih]

/-- C7: `cleanSummary` drops exactly the lines that are blank after trimming
or whose trimmed form begins with `"#"`, `"**"`, `"-"`, `"* "`,
`"Here's a breakdown"` or `"The following"`, joins the surviving trimmed
lines with single spaces, and no surviving line begins with any of those
markers, regardless of its position in the input. -/
theorem cleanSummary_matches_spec (s : Str) :
    cleanSummary s =
      joinWith (str " ")
        (((goSplit nl s).map goTrimSpace).filter (fun t => !droppedLineSpec t)) ∧
    ∀ t ∈ cleanLines (goSplit nl s), droppedLineSpec t = false := by
  constructor
  · unfold cleanSummary
    rw [cleanLines_eq_filter]
  · intro t ht
    rw [cleanLines_eq_filter] at ht
    have := List.of_mem_filter ht
    simpa using this

/-- Witness for C7 at a concrete input: a heading line and a bullet line are
dropped, the surviving line is kept verbatim. -/
theorem cleanSummary_matches_spec_witness :
    droppedLineSpec (str "Good line.") = false ∧
    cleanSummary (str "# Head") = [] := by
  constructor
  · exact (cleanSummary_matches_spec (str "Good line.")).2 (str "Good line.") (by decide)
  · have h := (cleanSummary_matches_spec (str "# Head")).1
    rw [h]
    decide

/-! ## Existing-Summary Index (cmd/root.go:219-273) -/

/-- `bufio.ScanLines` token post-processing: strip one trailing `'\r'`. -/
def dropCR (l : Str) : Str := goTrimSuffix l [cr]

/-- The lines produced by a `bufio.Scanner` over `content`
(cmd/root.go:236-241): the newline-separated tokens, without the trailing
empty token when the content ends in a newline, each with a trailing
carriage return removed; an empty file yields no lines. -/
def scanLines (content : Str) : List Str :=
  if content == [] then []
  else
    (if (goSplit nl content).getLast? = some [] then (goSplit nl content).dropLast
     else goSplit nl content).map dropCR

/-- `readLinesFromFile` (cmd/root.go:227-242): `none` models a file that
cannot be opened, in which case the function returns `nil` (no lines). -/
def readLinesFromFile (content : Option Str) : List Str :=
  match content with
  | none => []
  | some c => scanLines c

/-- The component pass of Go `path.Clean` over the `'/'`-separated
components of a path: empty and `"."` components are dropped; a `".."`
component erases the previous component when one is available, is dropped
at the root of a rooted path, and accumulates at the start of a relative
path.  `acc` holds the processed components in reverse. -/
def cleanComponents (rooted : Bool) : List Str → List Str → List Str
  | acc, [] => acc
  | acc, c :: cs =>
    if c = [] ∨ c = str "." then cleanComponents rooted acc cs
    else if c = str ".." then
      match acc with
      | [] =>
        if rooted then cleanComponents rooted [] cs
        else cleanComponents rooted [str ".."] cs
      | a :: as =>
        if a = str ".." then cleanComponents rooted (c :: a :: as) cs
        else cleanComponents rooted as cs
    else cleanComponents rooted (c :: acc) cs

/-- Go `path.Clean` (= `filepath.Clean` with `'/'` as the separator):
the shortest equivalent path — iterated slashes collapsed, `"."`
components dropped, inner `".."` components resolved against their
parent, `".."` at the root of a rooted path dropped; an empty result is
`"."` (or `"/"` when rooted). -/
def goClean (p : Str) : Str :=
  if p = [] then str "."
  else if leadsWith p (str "/") = true then
    (if cleanComponents true [] (goSplit '/' p) = [] then str "/"
     else '/' :: joinWith (str "/") (cleanComponents true [] (goSplit '/' p)).reverse)
  else
    (if cleanComponents false [] (goSplit '/' p) = [] then str "."
     else joinWith (str "/") (cleanComponents false [] (goSplit '/' p)).reverse)

/-- Go `filepath.Join(a, b)`: empty arguments are skipped and the joined
path is passed through `Clean`; joining two empty strings yields the
empty string (`Clean` is not applied then). -/
def goJoin (a b : Str) : Str :=
  if a = [] then (if b = [] then [] else goClean b)
  else if b = [] then goClean a
  else goClean (a ++ '/' :: b)

/-- The section-header test of cmd/root.go:248. -/
def isHeaderLine (l : Str) : Bool :=
  leadsWith l (str "## [") && goContains l (str "](")

/-- The entry-line test of cmd/root.go:256. -/
def isEntryLine (l : Str) : Bool :=
  leadsWith l (str "- [") && goContains l (str "](")

/-- The loop of `parseSummaryLines` (cmd/root.go:245-273), one line at a
time, threading `currentDir` and the map being filled. -/
def parseSummaryLoop : List Str → Str → GoMap → GoMap
  | [], _, existing => existing
  | line :: rest, currentDir, existing =>
    if isHeaderLine line then
      let start := goIndex line (str "[") + 1
      let stop := goIndex line (str "]")
      if start > 0 ∧ stop > start then
        parseSummaryLoop rest
          (goTrimSuffix (slice line start.toNat stop.toNat) (str "/")) existing
      else parseSummaryLoop rest currentDir existing
    else if isEntryLine line then
      let start := goIndex line (str "[") + 1
      let stop := goIndex line (str "]")
      if start > 0 ∧ stop > start then
        if currentDir ≠ [] then
          let key := goJoin currentDir (slice line start.toNat stop.toNat)
          let colon := goIndex line (str ": ")
          if colon > 0 then
            parseSummaryLoop rest currentDir
              (mapInsert existing key (goTrimSpace (line.drop (colon.toNat + 2))))
          else parseSummaryLoop rest currentDir existing
        else parseSummaryLoop rest currentDir existing
      else parseSummaryLoop rest currentDir existing
    else parseSummaryLoop rest currentDir existing

/-- `parseSummaryLines` (cmd/root.go:245-273): all lines, starting from the
empty `currentDir` and the empty map. -/
def parseSummaryLines (lines : List Str) : GoMap := parseSummaryLoop lines [] []

/-- `parseExistingSummaries` (cmd/root.go:219-224). -/
def parseExistingSummaries (content : Option Str) : GoMap :=
  parseSummaryLines (readLinesFromFile content)

/-! Stepping lemmas for the parser loop. -/

theorem parseSummaryLoop_skip {line : Str} (rest : List Str) (d : Str) (m : GoMap)
    (h1 : isHeaderLine line = false) (h2 : isEntryLine line = false) :
    parseSummaryLoop (line :: rest) d m = parseSummaryLoop rest d m := by
  simp only [parseSummaryLoop, h1, h2, Bool.false_eq_true, if_false]

theorem parseSummaryLoop_no_header {line : Str} (rest : List Str) (m : GoMap)
    (h1 : isHeaderLine line = false) :
    parseSummaryLoop (line :: rest) [] m = parseSummaryLoop rest [] m := by
  simp only [parseSummaryLoop, h1, Bool.false_eq_true, if_false]
  by_cases h2 : isEntryLine line = true
  · simp only [h2, if_true]
    split
    · simp
    · rfl
  · simp only [show isEntryLine line = false by simpa using h2,
      Bool.false_eq_true, if_false]

@[simp] theorem str_lbrack : str "[" = ['['] := rfl

@[simp] theorem str_rbrack : str "]" = [']'] := rfl

@[simp] theorem str_colonSpace : str ": " = [':', ' '] := rfl

@[simp] theorem str_entryLead : str "- [" = ['-', ' ', '['] := rfl

@[simp] theorem str_headerLead : str "## [" = ['#', '#', ' ', '['] := rfl

@[simp] theorem str_closeOpen : str "](" = [']', '('] := rfl

theorem parseSummaryLoop_header (line : Str) (rest : List Str) (d : Str) (m : GoMap)
    (hlead : leadsWith line (str "## [") = true)
    (hcont : goContains line (str "](") = true)
    (stop : Nat) (hstop : findSub line (str "]") = some stop) (hgt : 4 < stop) :
    parseSummaryLoop (line :: rest) d m
      = parseSummaryLoop rest (goTrimSuffix (slice line 4 stop) (str "/")) m := by
  have h1 : isHeaderLine line = true := by
    unfold isHeaderLine
    rw [hlead, hcont]
    rfl
  have hlb : findSub line (str "[") = some 3 := by
    obtain ⟨t, rfl⟩ := (leadsWith_iff line (str "## [")).mp hlead
    rw [str_lbrack, str_headerLead]
    exact findSub_single ['#', '#', ' '] t (by decide)
  simp only [parseSummaryLoop, h1, if_true, goIndex, hlb, hstop]
  rw [if_pos (by constructor <;> [norm_num; exact_mod_cast hgt])]
  norm_num
  rfl

theorem parseSummaryLoop_entry (line : Str) (rest : List Str) (d : Str) (m : GoMap)
    (hd : d ≠ [])
    (hlead : leadsWith line (str "- [") = true)
    (hcont : goContains line (str "](") = true)
    (stop : Nat) (hstop : findSub line (str "]") = some stop) (hgt : 3 < stop)
    (c : Nat) (hcolon : findSub line (str ": ") = some c) (hc : 0 < c) :
    parseSummaryLoop (line :: rest) d m
      = parseSummaryLoop rest d
          (mapInsert m (goJoin d (slice line 3 stop))
            (goTrimSpace (line.drop (c + 2)))) := by
  have h2 : isEntryLine line = true := by
    unfold isEntryLine
    rw [hlead, hcont]
    rfl
  have h1 : isHeaderLine line = false := by
    obtain ⟨t, rfl⟩ := (leadsWith_iff line (str "- [")).mp hlead
    have hlw : leadsWith (str "- [" ++ t) (str "## [") = false :=
      leadsWith_head_ne _ _ (by decide)
    unfold isHeaderLine
    rw [hlw]
    rfl
  have hlb : findSub line (str "[") = some 2 := by
    obtain ⟨t, rfl⟩ := (leadsWith_iff line (str "- [")).mp hlead
    rw [str_lbrack, str_entryLead]
    exact findSub_single ['-', ' '] t (by decide)
  simp only [parseSummaryLoop, h1, Bool.false_eq_true, if_false, h2, if_true,
    goIndex, hlb, hstop, hcolon]
  rw [if_pos (by constructor <;> [norm_num; exact_mod_cast hgt])]
  rw [if_pos hd]
  rw [if_pos (by exact_mod_cast hc)]
  norm_num
  rfl

theorem parseSummaryLines_no_header_skip (pre post : List Str)
    (h : ∀ l ∈ pre, isHeaderLine l = false) :
    parseSummaryLines (pre ++ post) = parseSummaryLines post := by
  unfold parseSummaryLines
  induction pre with
  | nil => rfl
  | cons l ls ih =>
    rw [List.cons_append,
      parseSummaryLoop_no_header (ls ++ post) [] (h l (List.mem_cons_self l ls))]
    exact ih (fun x hx => h x (List.mem_cons_of_mem l hx))

/-- C5 counterexample: the stored summary is NOT exactly the text after the
first `": "` of the entry line — the code additionally trims it.  For the
entry line `"- [a](../d/a):  x "` the text after the first `": "` is
`" x "`, but the stored summary is `"x"`. -/
theorem parseSummaryLines_trims_stored_summary_cx :
    (str "- [a](../d/a):  x ").drop (13 + 2) = str " x " ∧
    findSub (str "- [a](../d/a):  x ") (str ": ") = some 13 ∧
    mapLookup (parseSummaryLines [str "## [d/](../d/)", str "- [a](../d/a):  x "])
      (str "d/a") = some (str "x") ∧
    str "x" ≠ str " x " := by
  decide

/-- C5 (amended): `parseExistingSummaries` never fails.  An absent report
yields the empty mapping; any block of lines containing no section header
(in particular, entry lines seen before any section header, and unparsable
junk) contributes no mapping entry; and an entry line resolved under a
section header stores, for the key joined from the current directory and
the bracketed file name, the text after the FIRST occurrence of the `": "`
separator — trimmed of surrounding white space — so summaries containing
further colons are captured in full. -/
theorem parseExistingSummaries_contract :
    parseExistingSummaries none = [] ∧
    (∀ pre post : List Str, (∀ l ∈ pre, isHeaderLine l = false) →
      parseSummaryLines (pre ++ post) = parseSummaryLines post) ∧
    (∀ (line : Str) (rest : List Str) (d : Str) (m : GoMap) (stop c : Nat),
      d ≠ [] →
      leadsWith line (str "- [") = true →
      goContains line (str "](") = true →
      findSub line (str "]") = some stop → 3 < stop →
      findSub line (str ": ") = some c → 0 < c →
      parseSummaryLoop (line :: rest) d m
        = parseSummaryLoop rest d
            (mapInsert m (goJoin d (slice line 3 stop))
              (goTrimSpace (line.drop (c + 2))))) := by
  refine ⟨rfl, parseSummaryLines_no_header_skip, ?_⟩
  intro line rest d m stop c hd hlead hcont hstop hgt hcolon hc
  exact parseSummaryLoop_entry line rest d m hd hlead hcont stop hstop hgt c hcolon hc

/-- Witness for C5 at concrete inputs: an entry line before any header is
ignored, and an entry line under a header stores the trimmed text after the
first `": "` (here the summary itself contains a colon and is kept whole). -/
theorem parseExistingSummaries_contract_witness :
    parseSummaryLines ([str "- [a](../d/a): s"] ++ []) = parseSummaryLines [] ∧
    parseSummaryLoop [str "- [a](../d/a): k: v"] (str "d") []
      = parseSummaryLoop [] (str "d")
          (mapInsert [] (goJoin (str "d") (slice (str "- [a](../d/a): k: v") 3 4))
            (goTrimSpace ((str "- [a](../d/a): k: v").drop (13 + 2)))) ∧
    parseSummaryLoop [str "- [a](../d/a): k: v"] (str "d") []
      = [(str "d/a", str "k: v")] := by
  refine ⟨parseExistingSummaries_contract.2.1 [str "- [a](../d/a): s"] []
      (by decide), ?_, ?_⟩
  · exact parseExistingSummaries_contract.2.2 (str "- [a](../d/a): k: v") [] (str "d")
      [] 4 13 (by decide) (by decide) (by decide) (by decide) (by decide)
      (by decide) (by decide)
  · decide

/-! ## Sortedness of the insertion-sort model of `sort.Strings` / `sort.Slice` -/

theorem strLt_trans : ∀ a b c : Str, strLt a b = true → strLt b c = true → strLt a c = true := by
  intro a
  induction a with
  | nil =>
    intro b c hab hbc
    cases c with
    | nil => cases b <;> simp [strLt] at hbc
    | cons z cs => simp [strLt]
  | cons x as ih =>
    intro b c hab hbc
    cases b with
    | nil => simp [strLt] at hab
    | cons y bs =>
      cases c with
      | nil => simp [strLt] at hbc
      | cons z cs =>
        simp only [strLt] at hab hbc ⊢
        by_cases hxy : x < y
        · by_cases hyz : y < z
          · rw [if_pos (lt_trans hxy hyz)]
          · rw [if_neg hyz] at hbc
            by_cases hzy : z < y
            · rw [if_pos hzy] at hbc
              exact absurd hbc (by simp)
            · have hyzeq : y = z := le_antisymm (le_of_not_lt hzy) (le_of_not_lt hyz)
              rw [if_pos (hyzeq ▸ hxy)]
        · rw [if_neg hxy] at hab
          by_cases hyx : y < x
          · rw [if_pos hyx] at hab
            exact absurd hab (by simp)
          · have hxyeq : x = y := le_antisymm (le_of_not_lt hyx) (le_of_not_lt hxy)
            subst hxyeq
            rw [if_neg hxy] at hab
            by_cases hyz : x < z
            · rw [if_pos hyz]
            · rw [if_neg hyz] at hbc ⊢
              by_cases hzy : z < x
              · rw [if_pos hzy] at hbc
                exact absurd hbc (by simp)
              · rw [if_neg hzy] at hbc ⊢
                exact ih bs cs hab hbc

theorem strLe_iff (a b : Str) : strLe a b = true ↔ strLt a b = true ∨ a = b := by
  simp [strLe, Bool.or_eq_true, beq_iff_eq]

theorem strLt_cons_same (x : Char) (as bs : Str) :
    strLt (x :: as) (x :: bs) = strLt as bs := by
  simp [strLt, lt_irrefl]

theorem strLe_total : ∀ a b : Str, strLe a b = true ∨ strLe b a = true := by
  intro a
  induction a with
  | nil =>
    intro b
    cases b with
    | nil => left; rw [strLe_iff]; right; rfl
    | cons y bs => left; rw [strLe_iff]; left; rfl
  | cons x as ih =>
    intro b
    cases b with
    | nil => right; rw [strLe_iff]; left; rfl
    | cons y bs =>
      rcases lt_trichotomy x y with hxy | hxy | hxy
      · left
        rw [strLe_iff]
        left
        simp [strLt, hxy]
      · subst hxy
        rcases ih bs with h | h
        · left
          rw [strLe_iff] at h ⊢
          rcases h with h | h
          · left; rw [strLt_cons_same]; exact h
          · right; rw [h]
        · right
          rw [strLe_iff] at h ⊢
          rcases h with h | h
          · left; rw [strLt_cons_same]; exact h
          · right; rw [h]
      · right
        rw [strLe_iff]
        left
        simp [strLt, hxy]

theorem strLe_trans : ∀ a b c : Str, strLe a b = true → strLe b c = true → strLe a c = true := by
  intro a b c hab hbc
  rw [strLe_iff] at hab hbc ⊢
  rcases hab with hab | rfl
  · rcases hbc with hbc | rfl
    · exact Or.inl (strLt_trans a b c hab hbc)
    · exact Or.inl hab
  · exact hbc

theorem insertLe_perm (le : α → α → Bool) (x : α) :
    ∀ l : List α, (insertLe le x l).Perm (x :: l) := by
  intro l
  induction l with
  | nil => exact List.Perm.refl _
  | cons y ys ih =>
    by_cases h : le x y = true
    · simp [insertLe, h]
    · have hf : le x y = false := by simpa using h
      simp only [insertLe, hf, Bool.false_eq_true, if_false]
      exact (ih.cons y).trans (List.Perm.swap x y ys)

theorem sortBy_perm (le : α → α → Bool) :
    ∀ l : List α, (sortBy le l).Perm l := by
  intro l
  induction l with
  | nil => exact List.Perm.refl _
  | cons x xs ih => exact (insertLe_perm le x (sortBy le xs)).trans (ih.cons x)

theorem insertLe_pairwise (le : α → α → Bool)
    (htrans : ∀ a b c, le a b = true → le b c = true → le a c = true)
    (htot : ∀ a b, le a b = true ∨ le b a = true) (x : α) :
    ∀ l : List α, l.Pairwise (fun a b => le a b = true) →
      (insertLe le x l).Pairwise (fun a b => le a b = true) := by
  intro l
  induction l with
  | nil => intro _; exact List.pairwise_singleton _ x
  | cons y ys ih =>
    intro hp
    rcases List.pairwise_cons.mp hp with ⟨hy, hys⟩
    by_cases h : le x y = true
    · simp only [insertLe, h, if_true]
      refine List.pairwise_cons.mpr ⟨?_, hp⟩
      intro z hz
      rcases List.mem_cons.mp hz with rfl | hz
      · exact h
      · exact htrans x y z h (hy z hz)
    · have hf : le x y = false := by simpa using h
      have hyx : le y x = true := by
        rcases htot x y with hh | hh
        · rw [hh] at hf; exact absurd hf (by simp)
        · exact hh
      simp only [insertLe, hf, Bool.false_eq_true, if_false]
      refine List.pairwise_cons.mpr ⟨?_, ih hys⟩
      intro z hz
      have hz' : z ∈ x :: ys := ((insertLe_perm le x ys).mem_iff).mp hz
      rcases List.mem_cons.mp hz' with rfl | hz'
      · exact hyx
      · exact hy z hz'

theorem sortBy_pairwise (le : α → α → Bool)
    (htrans : ∀ a b c, le a b = true → le b c = true → le a c = true)
    (htot : ∀ a b, le a b = true ∨ le b a = true) :
    ∀ l : List α, (sortBy le l).Pairwise (fun a b => le a b = true) := by
  intro l
  induction l with
  | nil => exact List.Pairwise.nil
  | cons x xs ih => exact insertLe_pairwise le htrans htot x (sortBy le xs) ih

/-! ## Aggregator/Renderer (cmd/root.go:152-205)

In the model a discovered file is identified by its root-relative path with
forward slashes (for a file `f` under root `dir`, Go computes
`rel := filepath.ToSlash(filepath.Rel(dir, f))`; the model works with `rel`
directly, which is faithful because `filepath.Rel(dir, filepath.Join(dir, rel))
= rel` for the paths produced by `filepath.Walk`). -/

/-- `filepath.Dir` on a clean slash-separated relative path: everything
before the last slash, `"."` when there is no slash. -/
def goDir (p : Str) : Str :=
  if (goSplit '/' p).length ≤ 1 then str "."
  else joinWith (str "/") (goSplit '/' p).dropLast

/-- `filepath.Base` on a clean slash-separated relative path: the part
after the last slash. -/
def goBase (p : Str) : Str := ((goSplit '/' p).getLast?).getD p

/-- The per-directory buckets (`map[string][][2]string`), as an association
list in first-insertion order.  The Go map's iteration order is immaterial:
`writeMarkdownSummary` sorts the keys before rendering, and each bucket is a
slice whose order is append order, which the association list preserves. -/
abbrev GoGroup := List (Str × List (Str × Str))

/-- `grouped[dir] = append(grouped[dir], entry)` on the bucket map. -/
def groupAppend : GoGroup → Str → Str × Str → GoGroup
  | [], d, e => [(d, [e])]
  | b :: bs, d, e =>
    if b.1 == d then (b.1, b.2 ++ [e]) :: bs else b :: groupAppend bs d e

/-- `groupSummariesByDir` (cmd/root.go:153-161): bucket each file under the
directory of its relative path, pairing its base name with
`summaries[file]` (a Go map read — missing files read as `""`). -/
def groupSummariesByDir (yamlFiles : List Str) (summaries : GoMap) : GoGroup :=
  yamlFiles.foldl
    (fun g file => groupAppend g (goDir file) (goBase file, mapGetD summaries file)) []

/-- Go map read `grouped[dir]` (missing keys read as the empty slice). -/
def lookupGroup : GoGroup → Str → List (Str × Str)
  | [], _ => []
  | b :: bs, d => if b.1 == d then b.2 else lookupGroup bs d

/-- The lines of the `MarkdownHeader` constant (cmd/root.go:24-40). -/
def headerLines : List Str :=
  [str "# YAML File Details", [],
   str "This document provides an overview of all YAML files in the repository, organized by directory, with a brief description of what each file does or configures. Use this as a reference for understanding the purpose of each manifest or configuration file.", [],
   str "---", [],
   str "## How to Use",
   str "- Click the file links to jump to the file in the repository.",
   str "- Each entry includes a short summary of the file" ++ [apos] ++ str "s intent or function.", [],
   str "---", [],
   str "<!--",
   str "  To keep this file up to date, add new YAMLs as they are introduced and provide a short description for each.",
   str "-->", []]

/-- Concatenate lines, each followed by a newline. -/
def linesConcat (ls : List Str) : Str := ls.foldr (fun l acc => l ++ nl :: acc) []

/-- The `MarkdownHeader` constant (cmd/root.go:24-40), which ends with a
blank line. -/
def markdownHeader : Str := linesConcat headerLines

/-- The section-header line `"## [<dir>/](../<dir>/)"` written by
cmd/root.go:195. -/
def dirHeaderLine (dir : Str) : Str :=
  str "## [" ++ dir ++ str "/](../" ++ dir ++ str "/)"

/-- The entry line `"- [<name>](../<dir>/<name>): <summary>"` written by
cmd/root.go:199. -/
def entryLine (dir : Str) (e : Str × Str) : Str :=
  str "- [" ++ e.1 ++ str "](../" ++ dir ++ str "/" ++ e.1 ++ str "): " ++ e.2

/-- `sort.Slice` of a bucket by file name (cmd/root.go:190-194). -/
def sortEntries : List (Str × Str) → List (Str × Str) :=
  sortBy (fun a b => strLe a.1 b.1)

/-- The lines written by `writeMarkdownSummary` (cmd/root.go:164-205): the
fixed header, then for each directory (keys sorted with `sort.Strings`) a
blank line, the section header, and one entry line per file (bucket sorted
by file name).  The blank line is the leading `"\n"` of the
`"\n## [%s/](../%s/)\n"` format string. -/
def writeMarkdownLines (grouped : GoGroup) : List Str :=
  headerLines ++
    (sortStrs (grouped.map (fun b => b.1))).foldr
      (fun dir acc =>
        ([] : Str) :: dirHeaderLine dir ::
          ((sortEntries (lookupGroup grouped dir)).map (entryLine dir) ++ acc)) []

/-- `writeMarkdownSummary` (cmd/root.go:164-205), modelled as the full text
it writes to the report file: every line is newline-terminated, exactly as
the sequence of `WriteString`/`Fprintf` calls produces it. -/
def writeMarkdownSummary (grouped : GoGroup) : Str :=
  linesConcat (writeMarkdownLines grouped)

set_option maxRecDepth 4000

/-- C6: `writeMarkdownSummary` renders directory sections in lexicographic
order of directory path (its key list is `sort.Strings`-sorted) and file
entries within each section in lexicographic order of file name; in
particular directories `{"beta", "alpha"}` render `"alpha"` before
`"beta"`, and files `{"b.yaml", "a.yaml"}` render `"a.yaml"` before
`"b.yaml"`. -/
theorem writeMarkdownSummary_ordered (g : GoGroup) :
    (sortStrs (g.map (fun b => b.1))).Pairwise (fun a b => strLe a b = true) ∧
    (∀ dir, (sortEntries (lookupGroup g dir)).Pairwise
      (fun a b => strLe a.1 b.1 = true)) ∧
    writeMarkdownLines
        [(str "beta", [(str "b.yaml", str "S2.")]),
         (str "alpha", [(str "b.yaml", str "S1."), (str "a.yaml", str "S0.")])]
      = headerLines ++
          [[], dirHeaderLine (str "alpha"),
           entryLine (str "alpha") (str "a.yaml", str "S0."),
           entryLine (str "alpha") (str "b.yaml", str "S1."),
           [], dirHeaderLine (str "beta"),
           entryLine (str "beta") (str "b.yaml", str "S2.")] := by
  refine ⟨?_, ?_, ?_⟩
  · exact sortBy_pairwise strLe strLe_trans strLe_total _
  · intro dir
    exact sortBy_pairwise (fun (a b : Str × Str) => strLe a.1 b.1)
      (fun a b c hab hbc => strLe_trans a.1 b.1 c.1 hab hbc)
      (fun a b => strLe_total a.1 b.1) _
  · decide

/-! ## Work Partitioner and Summarization Executor (cmd/root.go:307-378) -/

/-- The `SummarizePrompt` constant (cmd/root.go:41). -/
def summarizePrompt : Str :=
  str "Summarize the purpose of this YAML file in no more than two short, high-level sentences. Do not include any lists, breakdowns, explanations, advice, notes, or formatting. Do not use markdown. No newlines. No code sections. Only output a single, concise summary of the file" ++
  [apos] ++
  str "s purpose, and nothing else. Stop after two sentences. If you cannot summarize in two sentences, summarize in one: " ++ [nl]

/-- `summarizeYAMLFile` (cmd/root.go:97-131): read the file, send the
prompt followed by the raw content to the model, then clean and truncate
the response to two sentences.  The two external effects are passed as
functions: `readFile` is `os.ReadFile` (`none` = read error) and `chat` is
the Ollama chat call (`none` = chat error, `some r` = the concatenated
streamed response). -/
def summarizeYAMLFile (readFile : Str → Option Str) (chat : Str → Option Str)
    (file : Str) : Option Str :=
  match readFile file with
  | none => none
  | some content =>
    match chat (summarizePrompt ++ content) with
    | none => none
    | some resp => some (truncateToSentences (cleanSummary resp) 2)

/-- The reuse test of the first pass of `processYAMLFiles`
(cmd/root.go:318-323): `forceRegenerate` is false and the index holds a
non-empty summary under the file's relative path.  In the model a
discovered file IS its slash-normalized root-relative path, so
`rel := filepath.ToSlash(filepath.Rel(dir, file))` is the file itself
(faithful because `filepath.Rel(dir, filepath.Join(dir, rel)) = rel` and
`ToSlash` is the identity on the slash paths `filepath.Walk` builds), and
the index lookup — Go's map read — is an exact, case-sensitive match. -/
def reusable (existing : GoMap) (forceRegenerate : Bool) (file : Str) : Bool :=
  !forceRegenerate &&
    (match mapLookup existing file with
     | some summary => summary != []
     | none => false)

/-- The first pass of `processYAMLFiles` (cmd/root.go:313-326), walking the
discovered files left to right: reusable files are copied into the
summaries map and counted as skipped; the rest are queued in `toProcess`
order.  (The recursion processes the head first; the resulting map answers
every lookup exactly as the loop's map does, and the counter and queue are
identical.) -/
def firstPass (existing : GoMap) (forceRegenerate : Bool) :
    List Str → GoMap × Nat × List Str
  | [] => ([], 0, [])
  | file :: rest =>
    let acc := firstPass existing forceRegenerate rest
    if reusable existing forceRegenerate file then
      (mapInsert acc.1 file (mapGetD existing file), acc.2.1 + 1, acc.2.2)
    else (acc.1, acc.2.1, file :: acc.2.2)

/-- The files queued for the Summarizer (the `toProcess` slice of
cmd/root.go:314-326). -/
def toProcess (yamlFiles : List Str) (existing : GoMap) (forceRegenerate : Bool) :
    List Str :=
  (firstPass existing forceRegenerate yamlFiles).2.2

/-- The concurrent second pass of `processYAMLFiles` (cmd/root.go:337-375),
serialized.  Each worker performs exactly one `mu.Lock()`-guarded write to
the shared summaries map and atomic counter increments, so every concurrent
execution (any worker count) is equivalent to performing the per-file
effects in SOME order, one file at a time; `order` is that interleaving.
`summarize` is the per-file outcome (`none` = read or chat error, which is
printed and the file skipped without touching the map or the processed
counter). -/
def execPass (summarize : Str → Option Str) :
    List Str → GoMap → Nat → GoMap × Nat
  | [], summaries, processed => (summaries, processed)
  | f :: rest, summaries, processed =>
    match summarize f with
    | none => execPass summarize rest summaries processed
    | some s => execPass summarize rest (mapInsert summaries f s) (processed + 1)

/-- `processYAMLFiles` (cmd/root.go:307-378): first pass partitions, second
pass summarizes the queued files (in interleaving order `order`); returns
(summaries, processed, skipped). -/
def processYAMLFiles (yamlFiles : List Str) (existing : GoMap)
    (summarize : Str → Option Str) (forceRegenerate : Bool) (order : List Str) :
    GoMap × Nat × Nat :=
  let fp := firstPass existing forceRegenerate yamlFiles
  let ex := execPass summarize order fp.1 0
  (ex.1, ex.2, fp.2.1)

/-! Lemmas about the partitioner. -/

theorem toProcess_eq_filter (yamlFiles : List Str) (existing : GoMap) (force : Bool) :
    toProcess yamlFiles existing force
      = yamlFiles.filter (fun f => !reusable existing force f) := by
  unfold toProcess
  induction yamlFiles with
  | nil => rfl
  | cons f rest ih =>
    by_cases h : reusable existing force f = true
    · simp [firstPass, h, List.filter_cons, ih]
    · have hf : reusable existing force f = false := by simpa using h
      simp [firstPass, hf, List.filter_cons, ih]

theorem firstPass_skipped (existing : GoMap) (force : Bool) (yamlFiles : List Str) :
    (firstPass existing force yamlFiles).2.1
      = (yamlFiles.filter (reusable existing force)).length := by
  induction yamlFiles with
  | nil => rfl
  | cons f rest ih =>
    by_cases h : reusable existing force f = true
    · simp [firstPass, h, List.filter_cons, ih]
    · have hf : reusable existing force f = false := by simpa using h
      simp [firstPass, hf, List.filter_cons, ih]

theorem execPass_processed (summarize : Str → Option Str) :
    ∀ (order : List Str) (m : GoMap) (p : Nat),
      (execPass summarize order m p).2
        = p + (order.filter (fun f => (summarize f).isSome)).length := by
  intro order
  induction order with
  | nil => intro m p; simp [execPass]
  | cons f rest ih =>
    intro m p
    cases hs : summarize f with
    | none => simp [execPass, hs, List.filter_cons, ih]
    | some s =>
      simp [execPass, hs, List.filter_cons, ih]
      omega

theorem mapInsert_of_lookup_none {m : GoMap} {k : Str} (v : Str)
    (h : mapLookup m k = none) : mapInsert m k v = m ++ [(k, v)] := by
  induction m with
  | nil => rfl
  | cons p ps ih =>
    by_cases hp : (p.1 == k) = true
    · rw [mapLookup, if_pos hp] at h
      exact absurd h (by simp)
    · have hp' : (p.1 == k) = false := by simpa using hp
      rw [mapLookup, if_neg (by simp [hp'])] at h
      simp [mapInsert, hp', ih h]

theorem mapLookup_append_left {m1 : GoMap} (m2 : GoMap) {k : Str} {v : Str}
    (h : mapLookup m1 k = some v) : mapLookup (m1 ++ m2) k = some v := by
  induction m1 with
  | nil => simp [mapLookup] at h
  | cons p ps ih =>
    by_cases hp : (p.1 == k) = true
    · rw [mapLookup, if_pos hp] at h
      simp [mapLookup, hp, h]
    · have hp' : (p.1 == k) = false := by simpa using hp
      rw [mapLookup, if_neg (by simp [hp'])] at h
      simp only [List.cons_append, mapLookup, hp', Bool.false_eq_true, if_false]
      exact ih h

theorem mapLookup_append_right {m1 : GoMap} (m2 : GoMap) {k : Str}
    (h : mapLookup m1 k = none) : mapLookup (m1 ++ m2) k = mapLookup m2 k := by
  induction m1 with
  | nil => rfl
  | cons p ps ih =>
    by_cases hp : (p.1 == k) = true
    · rw [mapLookup, if_pos hp] at h
      exact absurd h (by simp)
    · have hp' : (p.1 == k) = false := by simpa using hp
      rw [mapLookup, if_neg (by simp [hp'])] at h
      simp only [List.cons_append, mapLookup, hp', Bool.false_eq_true, if_false]
      exact ih h

/-- When every queued file succeeds and the queue has no duplicates, the
executor extends the map by exactly one entry per file (in queue order) and
counts every file as processed. -/
theorem execPass_all_succeed (summarize : Str → Option Str) (g : Str → Str) :
    ∀ (order : List Str) (m : GoMap) (p : Nat),
      order.Nodup →
      (∀ f ∈ order, summarize f = some (g f)) →
      (∀ f ∈ order, mapLookup m f = none) →
      (execPass summarize order m p).1 = m ++ order.map (fun f => (f, g f)) ∧
      (execPass summarize order m p).2 = p + order.length := by
  intro order
  induction order with
  | nil => intro m p _ _ _; simp [execPass]
  | cons f rest ih =>
    intro m p hnd hsucc hfresh
    rcases List.nodup_cons.mp hnd with ⟨hfnotin, hndrest⟩
    have hf := hsucc f (List.mem_cons_self f rest)
    have hmf := hfresh f (List.mem_cons_self f rest)
    have hstep : execPass summarize (f :: rest) m p
        = execPass summarize rest (mapInsert m f (g f)) (p + 1) := by
      simp [execPass, hf]
    have hins := mapInsert_of_lookup_none (m := m) (k := f) (g f) hmf
    have hfresh2 : ∀ x ∈ rest, mapLookup (mapInsert m f (g f)) x = none := by
      intro x hx
      rw [mapLookup_insert]
      have hxf : ¬(x = f) := fun hc => hfnotin (hc ▸ hx)
      rw [if_neg hxf]
      exact hfresh x (List.mem_cons_of_mem f hx)
    have hsucc2 : ∀ x ∈ rest, summarize x = some (g x) :=
      fun x hx => hsucc x (List.mem_cons_of_mem f hx)
    obtain ⟨ihmap, ihcnt⟩ := ih (mapInsert m f (g f)) (p + 1) hndrest hsucc2 hfresh2
    constructor
    · rw [hstep, ihmap, hins, List.append_assoc]
      rfl
    · rw [hstep, ihcnt, List.length_cons]
      omega

theorem mapLookup_map_pairs (g : Str → Str) :
    ∀ (l : List Str) (f : Str), f ∈ l →
      mapLookup (l.map (fun x => (x, g x))) f = some (g f) := by
  intro l
  induction l with
  | nil => intro f hf; simp at hf
  | cons x xs ih =>
    intro f hf
    by_cases hfx : (x == f) = true
    · have : x = f := by simpa using hfx
      subst this
      simp [mapLookup]
    · have hfx' : (x == f) = false := by simpa using hfx
      have hfmem : f ∈ xs := by
        rcases List.mem_cons.mp hf with rfl | h
        · simp at hfx'
        · exact h
      simp only [List.map_cons, mapLookup, hfx', Bool.false_eq_true, if_false]
      exact ih f hfmem

/-- C4 counterexample: with a single non-reusable file whose summarization
fails, the processed counter is 0, not the number of non-reusable files
(which is 1) — the counter only counts successful summarizations. -/
theorem processYAMLFiles_processed_cx :
    (processYAMLFiles [str "a.yaml"] [] (fun _ => none) false
        (toProcess [str "a.yaml"] [] false)).2.1 = 0 ∧
    (toProcess [str "a.yaml"] [] false).length = 1 ∧
    reusable [] false (str "a.yaml") = false := by
  decide

/-- C4 (amended): a discovered file is sent to the Summarizer if and only
if it is not reusable (reusable = `forceRegenerate` false and a non-empty
summary under the exact relative path); the skipped counter equals the
number of reusable files; and the processed counter equals the number of
files sent to the Summarizer WHOSE SUMMARIZATION SUCCEEDED — equal to the
number of non-reusable files only when no per-file failure occurs. -/
theorem processYAMLFiles_partition (yamlFiles : List Str) (existing : GoMap)
    (summarize : Str → Option Str) (force : Bool) (order : List Str)
    (hperm : order.Perm (toProcess yamlFiles existing force)) :
    (∀ f, f ∈ order ↔ (f ∈ yamlFiles ∧ reusable existing force f = false)) ∧
    (processYAMLFiles yamlFiles existing summarize force order).2.2
      = (yamlFiles.filter (reusable existing force)).length ∧
    (processYAMLFiles yamlFiles existing summarize force order).2.1
      = (order.filter (fun f => (summarize f).isSome)).length ∧
    ((∀ f ∈ order, (summarize f).isSome = true) →
      (processYAMLFiles yamlFiles existing summarize force order).2.1
        = (toProcess yamlFiles existing force).length) := by
  refine ⟨?_, ?_, ?_, ?_⟩
  · intro f
    rw [hperm.mem_iff, toProcess_eq_filter, List.mem_filter]
    simp
  · exact firstPass_skipped existing force yamlFiles
  · rw [show (processYAMLFiles yamlFiles existing summarize force order).2.1
        = (execPass summarize order (firstPass existing force yamlFiles).1 0).2
      from rfl]
    rw [execPass_processed summarize order _ 0]
    omega
  · intro hall
    rw [show (processYAMLFiles yamlFiles existing summarize force order).2.1
        = (execPass summarize order (firstPass existing force yamlFiles).1 0).2
      from rfl]
    rw [execPass_processed summarize order _ 0,
      List.filter_eq_self.mpr hall]
    have := hperm.length_eq
    omega

/-- Witness for C4 at a concrete run: two files, one reusable, one not;
the non-reusable file is the one sent, skipped = 1, and since its
summarization succeeds, processed = 1. -/
theorem processYAMLFiles_partition_witness :
    ((str "b.yaml") ∈ toProcess [str "a.yaml", str "b.yaml"]
        [(str "a.yaml", str "Old.")] false ↔
      ((str "b.yaml") ∈ [str "a.yaml", str "b.yaml"] ∧
        reusable [(str "a.yaml", str "Old.")] false (str "b.yaml") = false)) ∧
    (processYAMLFiles [str "a.yaml", str "b.yaml"] [(str "a.yaml", str "Old.")]
        (fun _ => some (str "New."))
        false (toProcess [str "a.yaml", str "b.yaml"]
          [(str "a.yaml", str "Old.")] false)).2.2 = 1 ∧
    (processYAMLFiles [str "a.yaml", str "b.yaml"] [(str "a.yaml", str "Old.")]
        (fun _ => some (str "New."))
        false (toProcess [str "a.yaml", str "b.yaml"]
          [(str "a.yaml", str "Old.")] false)).2.1 = 1 := by
  have h := processYAMLFiles_partition [str "a.yaml", str "b.yaml"]
    [(str "a.yaml", str "Old.")] (fun _ => some (str "New.")) false
    (toProcess [str "a.yaml", str "b.yaml"] [(str "a.yaml", str "Old.")] false)
    (List.Perm.refl _)
  refine ⟨h.1 (str "b.yaml"), ?_, ?_⟩
  · rw [h.2.1]
    decide
  · rw [h.2.2.2 (by decide)]
    decide

/-- C9: with N distinct to-process files, any concurrency limit k with
1 ≤ k < N, and a Summarizer that succeeds on every file, the executor
produces exactly N summary records — the record keys are a permutation of
the files, with no duplicates and none missing — and the processed counter
is N, REGARDLESS of the interleaving (`order`) in which the workers'
mutex-guarded map writes are serialized. -/
theorem processYAMLFiles_concurrency (files order : List Str)
    (summarize : Str → Option Str) (g : Str → Str) (k N : Nat)
    (hnd : files.Nodup) (hperm : order.Perm files) (hN : files.length = N)
    (_hk : 1 ≤ k) (_hkN : k < N)
    (hsucc : ∀ f ∈ files, summarize f = some (g f)) :
    ((execPass summarize order [] 0).1.map Prod.fst).Perm files ∧
    (execPass summarize order [] 0).1.length = N ∧
    ((execPass summarize order [] 0).1.map Prod.fst).Nodup ∧
    (∀ f ∈ files, mapLookup (execPass summarize order [] 0).1 f = some (g f)) ∧
    (execPass summarize order [] 0).2 = N := by
  have hndo : order.Nodup := (hperm.nodup_iff).mpr hnd
  have hsucco : ∀ f ∈ order, summarize f = some (g f) :=
    fun f hf => hsucc f (hperm.mem_iff.mp hf)
  obtain ⟨hmap, hcnt⟩ := execPass_all_succeed summarize g order [] 0 hndo hsucco
    (fun f _ => rfl)
  have hkeys : (execPass summarize order [] 0).1.map Prod.fst = order := by
    rw [hmap]
    simp only [List.nil_append, List.map_map]
    exact List.map_id order |> fun h => by
      rw [show (Prod.fst ∘ fun f => (f, g f)) = id from rfl, h]
  have hlen : (execPass summarize order [] 0).1.length = order.length := by
    rw [hmap]
    simp
  have horder : order.length = N := by rw [hperm.length_eq, hN]
  refine ⟨?_, ?_, ?_, ?_, ?_⟩
  · rw [hkeys]; exact hperm
  · rw [hlen, horder]
  · rw [hkeys]; exact hndo
  · intro f hf
    rw [hmap]
    simpa using mapLookup_map_pairs g order f (hperm.mem_iff.mpr hf)
  · rw [hcnt]
    omega

/-- Witness for C9 at a concrete run: three files processed with limit
k = 1 < 3 in a scrambled interleaving still yield exactly the three
records and processed = 3. -/
theorem processYAMLFiles_concurrency_witness :
    ((execPass (fun f => some (f ++ str "!"))
        [str "b.yaml", str "c.yaml", str "a.yaml"] [] 0).1.map
          Prod.fst).Perm [str "a.yaml", str "b.yaml", str "c.yaml"] ∧
    (execPass (fun f => some (f ++ str "!"))
        [str "b.yaml", str "c.yaml", str "a.yaml"] [] 0).2 = 3 := by
  have h := processYAMLFiles_concurrency
    [str "a.yaml", str "b.yaml", str "c.yaml"]
    [str "b.yaml", str "c.yaml", str "a.yaml"]
    (fun f => some (f ++ str "!")) (fun f => f ++ str "!") 1 3
    (by decide) (by decide) (by decide) (by decide) (by decide)
    (fun f _ => rfl)
  exact ⟨h.1, h.2.2.2.2⟩

/-! ## C2: what happens to a file whose summarization fails -/

theorem execPass_lookup_of_fail (summarize : Str → Option Str) {f : Str}
    (hfail : summarize f = none) :
    ∀ (order : List Str) (m : GoMap) (p : Nat),
      mapLookup (execPass summarize order m p).1 f = mapLookup m f := by
  intro order
  induction order with
  | nil => intro m p; rfl
  | cons x rest ih =>
    intro m p
    cases hx : summarize x with
    | none =>
      rw [show execPass summarize (x :: rest) m p = execPass summarize rest m p by
        simp [execPass, hx]]
      exact ih m p
    | some s =>
      rw [show execPass summarize (x :: rest) m p
          = execPass summarize rest (mapInsert m x s) (p + 1) by
        simp [execPass, hx]]
      rw [ih _ (p + 1), mapLookup_insert]
      have hne : ¬(f = x) := by
        intro hc
        rw [hc, hx] at hfail
        exact absurd hfail (by simp)
      rw [if_neg hne]

theorem execPass_lookup_stable (summarize : Str → Option Str) {x : Str} {s : Str}
    (hx : summarize x = some s) :
    ∀ (order : List Str) (m : GoMap) (p : Nat),
      mapLookup m x = some s →
      mapLookup (execPass summarize order m p).1 x = some s := by
  intro order
  induction order with
  | nil => intro m p h; exact h
  | cons y rest ih =>
    intro m p h
    cases hy : summarize y with
    | none =>
      rw [show execPass summarize (y :: rest) m p = execPass summarize rest m p by
        simp [execPass, hy]]
      exact ih m p h
    | some t =>
      rw [show execPass summarize (y :: rest) m p
          = execPass summarize rest (mapInsert m y t) (p + 1) by
        simp [execPass, hy]]
      refine ih _ (p + 1) ?_
      rw [mapLookup_insert]
      by_cases hxy : x = y
      · subst hxy
        rw [hx] at hy
        injection hy with hst
        rw [if_pos rfl, hst]
      · rw [if_neg hxy]
        exact h

theorem execPass_lookup_of_success (summarize : Str → Option Str) {x : Str} {s : Str}
    (hx : summarize x = some s) :
    ∀ (order : List Str) (m : GoMap) (p : Nat), x ∈ order →
      mapLookup (execPass summarize order m p).1 x = some s := by
  intro order
  induction order with
  | nil => intro m p h; simp at h
  | cons y rest ih =>
    intro m p hmem
    by_cases hxy : x = y
    · subst hxy
      rw [show execPass summarize (x :: rest) m p
          = execPass summarize rest (mapInsert m x s) (p + 1) by
        simp [execPass, hx]]
      refine execPass_lookup_stable summarize hx rest _ (p + 1) ?_
      rw [mapLookup_insert, if_pos rfl]
    · have hmem' : x ∈ rest := by
        rcases List.mem_cons.mp hmem with rfl | h
        · exact absurd rfl hxy
        · exact h
      cases hy : summarize y with
      | none =>
        rw [show execPass summarize (y :: rest) m p = execPass summarize rest m p by
          simp [execPass, hy]]
        exact ih m p hmem'
      | some t =>
        rw [show execPass summarize (y :: rest) m p
            = execPass summarize rest (mapInsert m y t) (p + 1) by
          simp [execPass, hy]]
        exact ih _ (p + 1) hmem'

theorem firstPass_lookup_not_reusable (existing : GoMap) (force : Bool) {f : Str}
    (hf : reusable existing force f = false) :
    ∀ yamlFiles : List Str,
      mapLookup (firstPass existing force yamlFiles).1 f = none := by
  intro yamlFiles
  induction yamlFiles with
  | nil => rfl
  | cons x rest ih =>
    by_cases hx : reusable existing force x = true
    · have hne : ¬(f = x) := by
        intro hc
        rw [hc, hx] at hf
        exact absurd hf (by simp)
      simp only [firstPass, hx, if_true]
      rw [mapLookup_insert, if_neg hne]
      exact ih
    · have hx' : reusable existing force x = false := by simpa using hx
      simp only [firstPass, hx', Bool.false_eq_true, if_false]
      exact ih

theorem lookupGroup_groupAppend (g : GoGroup) (d : Str) (e : Str × Str) (q : Str) :
    lookupGroup (groupAppend g d e) q
      = if q = d then lookupGroup g q ++ [e] else lookupGroup g q := by
  induction g with
  | nil =>
    by_cases hq : q = d
    · subst hq
      simp [groupAppend, lookupGroup]
    · have : (d == q) = false := by
        simp only [beq_eq_false_iff_ne, ne_eq]
        exact fun hc => hq hc.symm
      simp [groupAppend, lookupGroup, this, hq]
  | cons b bs ih =>
    by_cases hb : (b.1 == d) = true
    · have hb' : b.1 = d := by simpa using hb
      by_cases hq : q = d
      · subst hq
        simp [groupAppend, hb, lookupGroup, hb']
      · have hbq : (b.1 == q) = false := by
          simp only [beq_eq_false_iff_ne, ne_eq, hb']
          exact fun hc => hq hc.symm
        simp [groupAppend, hb, lookupGroup, hbq, hq]
    · have hb' : (b.1 == d) = false := by simpa using hb
      by_cases hbq : (b.1 == q) = true
      · have hq : ¬(q = d) := by
          intro hc
          rw [show b.1 = q by simpa using hbq, hc] at hb'
          simp at hb'
        simp [groupAppend, hb', lookupGroup, hbq, hq]
      · have hbq' : (b.1 == q) = false := by simpa using hbq
        simp [groupAppend, hb', lookupGroup, hbq', ih]

theorem lookupGroup_foldl_mem (summaries : GoMap) (x : Str × Str) (d : Str) :
    ∀ (files : List Str) (g : GoGroup), x ∈ lookupGroup g d →
      x ∈ lookupGroup
        (files.foldl (fun acc file =>
          groupAppend acc (goDir file) (goBase file, mapGetD summaries file)) g) d := by
  intro files
  induction files with
  | nil => intro g h; exact h
  | cons f rest ih =>
    intro g h
    rw [List.foldl_cons]
    refine ih _ ?_
    rw [lookupGroup_groupAppend]
    by_cases hd : d = goDir f
    · rw [if_pos hd]
      exact List.mem_append_left _ h
    · rw [if_neg hd]
      exact h

theorem lookupGroup_foldl_mem_self (summaries : GoMap) (f : Str) :
    ∀ (files : List Str) (g : GoGroup), f ∈ files →
      (goBase f, mapGetD summaries f)
        ∈ lookupGroup
          (files.foldl (fun acc file =>
            groupAppend acc (goDir file) (goBase file, mapGetD summaries file)) g)
          (goDir f) := by
  intro files
  induction files with
  | nil => intro g hf; simp at hf
  | cons x rest ih =>
    intro g hf
    rw [List.foldl_cons]
    rcases List.mem_cons.mp hf with rfl | hmem
    · refine lookupGroup_foldl_mem summaries _ _ rest _ ?_
      rw [lookupGroup_groupAppend, if_pos rfl]
      exact List.mem_append_right _ (List.mem_singleton.mpr rfl)
    · exact ih _ hmem

theorem groupSummariesByDir_mem (yamlFiles : List Str) (summaries : GoMap)
    (f : Str) (hf : f ∈ yamlFiles) :
    (goBase f, mapGetD summaries f)
      ∈ lookupGroup (groupSummariesByDir yamlFiles summaries) (goDir f) := by
  unfold groupSummariesByDir
  exact lookupGroup_foldl_mem_self summaries f yamlFiles [] hf

theorem lookupGroup_mem_keys (g : GoGroup) (d : Str) (h : lookupGroup g d ≠ []) :
    d ∈ g.map (fun b => b.1) := by
  induction g with
  | nil => exact absurd rfl h
  | cons b bs ih =>
    by_cases hb : (b.1 == d) = true
    · have : b.1 = d := by simpa using hb
      simp [List.map_cons, this]
    · have hb' : (b.1 == d) = false := by simpa using hb
      rw [lookupGroup, if_neg (by simp [hb'])] at h
      simp only [List.map_cons, List.mem_cons]
      exact Or.inr (ih h)

theorem foldr_sections_mem (g : GoGroup) (y : Str) :
    ∀ dirs : List Str,
      (∃ d ∈ dirs, y ∈ (sortEntries (lookupGroup g d)).map (entryLine d)) →
      y ∈ dirs.foldr
        (fun dir acc =>
          ([] : Str) :: dirHeaderLine dir ::
            ((sortEntries (lookupGroup g dir)).map (entryLine dir) ++ acc)) [] := by
  intro dirs
  induction dirs with
  | nil => rintro ⟨d, hd, _⟩; simp at hd
  | cons d ds ih =>
    rintro ⟨d0, hd0, hy⟩
    rw [List.foldr_cons]
    rcases List.mem_cons.mp hd0 with rfl | hmem
    · exact List.mem_cons_of_mem _ (List.mem_cons_of_mem _
        (List.mem_append_left _ hy))
    · exact List.mem_cons_of_mem _ (List.mem_cons_of_mem _
        (List.mem_append_right _ (ih ⟨d0, hmem, hy⟩)))

theorem writeMarkdownLines_mem_entry (g : GoGroup) (dir : Str) (x : Str × Str)
    (hdir : dir ∈ g.map (fun b => b.1)) (hx : x ∈ lookupGroup g dir) :
    entryLine dir x ∈ writeMarkdownLines g := by
  unfold writeMarkdownLines
  refine List.mem_append_right _ ?_
  refine foldr_sections_mem g _ _ ⟨dir, ?_, ?_⟩
  · exact ((sortBy_perm strLe _).mem_iff).mpr hdir
  · exact List.mem_map_of_mem _ (((sortBy_perm _ _).mem_iff).mpr hx)

/-- C2 counterexample: `a.yaml` fails to summarize while `b.yaml` succeeds;
`a.yaml` gets no summary record, yet `writeMarkdownSummary` still writes an
entry line for it (with empty summary text) — it is not omitted from the
report. -/
theorem failed_file_entry_rendered_cx :
    mapLookup
        (processYAMLFiles [str "a.yaml", str "b.yaml"] []
          (fun x => if x == str "b.yaml" then some (str "B.") else none) false
          (toProcess [str "a.yaml", str "b.yaml"] [] false)).1
        (str "a.yaml") = none ∧
    entryLine (str ".") (str "a.yaml", [])
      ∈ writeMarkdownLines
          (groupSummariesByDir [str "a.yaml", str "b.yaml"]
            (processYAMLFiles [str "a.yaml", str "b.yaml"] []
              (fun x => if x == str "b.yaml" then some (str "B.") else none) false
              (toProcess [str "a.yaml", str "b.yaml"] [] false)).1) ∧
    mapLookup
        (processYAMLFiles [str "a.yaml", str "b.yaml"] []
          (fun x => if x == str "b.yaml" then some (str "B.") else none) false
          (toProcess [str "a.yaml", str "b.yaml"] [] false)).1
        (str "b.yaml") = some (str "B.") := by
  decide

/-- C2 (amended): a discovered file whose summarization fails gets no entry
in the summaries map, but it still APPEARS in the rendered report:
`groupSummariesByDir` buckets every discovered file and reads the missing
summary as `""`, so `writeMarkdownSummary` writes an entry line for the
failed file with empty summary text.  The batch continues: every file whose
summarization succeeds keeps its summary in the map. -/
theorem summarize_failure_renders_empty_entry (yamlFiles : List Str)
    (existing : GoMap) (summarize : Str → Option Str) (force : Bool)
    (order : List Str) (f : Str)
    (hf : f ∈ yamlFiles)
    (hnr : reusable existing force f = false)
    (hfail : summarize f = none) :
    mapLookup (processYAMLFiles yamlFiles existing summarize force order).1 f
      = none ∧
    (goBase f, [])
      ∈ lookupGroup
          (groupSummariesByDir yamlFiles
            (processYAMLFiles yamlFiles existing summarize force order).1)
          (goDir f) ∧
    entryLine (goDir f) (goBase f, [])
      ∈ writeMarkdownLines
          (groupSummariesByDir yamlFiles
            (processYAMLFiles yamlFiles existing summarize force order).1) ∧
    (∀ x s, x ∈ order → summarize x = some s →
      mapLookup (processYAMLFiles yamlFiles existing summarize force order).1 x
        = some s) := by
  have h1 : mapLookup
      (processYAMLFiles yamlFiles existing summarize force order).1 f = none := by
    rw [show (processYAMLFiles yamlFiles existing summarize force order).1
        = (execPass summarize order (firstPass existing force yamlFiles).1 0).1
      from rfl]
    rw [execPass_lookup_of_fail summarize hfail order _ 0]
    exact firstPass_lookup_not_reusable existing force hnr yamlFiles
  have h2 : (goBase f, [])
      ∈ lookupGroup
          (groupSummariesByDir yamlFiles
            (processYAMLFiles yamlFiles existing summarize force order).1)
          (goDir f) := by
    have := groupSummariesByDir_mem yamlFiles
      (processYAMLFiles yamlFiles existing summarize force order).1 f hf
    rwa [show mapGetD
        (processYAMLFiles yamlFiles existing summarize force order).1 f = [] by
      unfold mapGetD
      rw [h1]
      rfl] at this
  refine ⟨h1, h2, ?_, ?_⟩
  · refine writeMarkdownLines_mem_entry _ _ _ ?_ h2
    exact lookupGroup_mem_keys _ _ (by
      intro hc
      rw [hc] at h2
      simp at h2)
  · intro x s hx hs
    rw [show (processYAMLFiles yamlFiles existing summarize force order).1
        = (execPass summarize order (firstPass existing force yamlFiles).1 0).1
      from rfl]
    exact execPass_lookup_of_success summarize hs order _ 0 hx

/-- Witness for C2 at a concrete run: applying the theorem to the run in
which `a.yaml` fails and `b.yaml` succeeds. -/
theorem summarize_failure_renders_empty_entry_witness :
    entryLine (goDir (str "a.yaml")) (goBase (str "a.yaml"), [])
      ∈ writeMarkdownLines
          (groupSummariesByDir [str "a.yaml", str "b.yaml"]
            (processYAMLFiles [str "a.yaml", str "b.yaml"] []
              (fun x => if x == str "b.yaml" then some (str "B.") else none)
              false [str "b.yaml"]).1) ∧
    mapLookup
        (processYAMLFiles [str "a.yaml", str "b.yaml"] []
          (fun x => if x == str "b.yaml" then some (str "B.") else none)
          false [str "b.yaml"]).1 (str "b.yaml") = some (str "B.") := by
  have h := summarize_failure_renders_empty_entry [str "a.yaml", str "b.yaml"] []
    (fun x => if x == str "b.yaml" then some (str "B.") else none) false
    [str "b.yaml"] (str "a.yaml") (by decide) (by decide) (by decide)
  exact ⟨h.2.2.1, h.2.2.2 (str "b.yaml") (str "B.") (by decide) (by decide)⟩

/-! ## File Discovery: `findYAMLFiles` (cmd/root.go:54-72) -/

/-- A directory tree as visited by `filepath.Walk`.  Each node carries the
name that `os.FileInfo.Name()` reports for it (for the root this is the
base name of the root path).  `errNode` is an entry whose `lstat` fails:
`Walk` passes that error to the callback, which returns it, aborting the
walk.  Children are listed in the sorted order `filepath.Walk` visits them
(`readDirNames` sorts the directory listing). -/
inductive FSTree where
  | file (name : Str)
  | dir (name : Str) (entries : List FSTree)
  | errNode (name : Str)

/-- The `info.Name()` of a node. -/
def FSTree.name : FSTree → Str
  | .file n => n
  | .dir n _ => n
  | .errNode n => n

mutual

/-- The callback of cmd/root.go:56-70 applied along the walk of one node:
`path` is the node's path, `acc` the `yamlFiles` collected so far; returns
the extended collection and the error that aborted the walk, if any.  The
`filepath.SkipDir` returned by the hidden-directory check is not an error:
the subtree is pruned and the walk continues. -/
def walkTree (includeHidden : Bool) (path : Str) (t : FSTree) (acc : List Str) :
    List Str × Option Str :=
  match t with
  | .errNode _ => (acc, some path)
  | .file n =>
    if endsWith n (str ".yaml") || endsWith n (str ".yml") then (acc ++ [path], none)
    else (acc, none)
  | .dir n entries =>
    if !includeHidden && leadsWith n (str ".") then (acc, none)
    else walkEntries includeHidden path entries acc

/-- Walk the children of a directory in listing order, aborting at the
first error. -/
def walkEntries (includeHidden : Bool) (path : Str) :
    List FSTree → List Str → List Str × Option Str
  | [], acc => (acc, none)
  | t :: rest, acc =>
    match walkTree includeHidden (goJoin path t.name) t acc with
    | (acc', some e) => (acc', some e)
    | (acc', none) => walkEntries includeHidden path rest acc'

end

/-- `findYAMLFiles` (cmd/root.go:54-72): walk the tree rooted at `root`
(whose `name` models the base name of `rootPath`), collecting the paths of
files whose name ends in `.yaml` or `.yml`; an I/O error aborts the walk,
and the function returns the `yamlFiles` slice as collected so far
alongside the error. -/
def findYAMLFiles (root : FSTree) (rootPath : Str) (includeHidden : Bool) :
    List Str × Option Str :=
  walkTree includeHidden rootPath root []

theorem walkEntries_append (includeHidden : Bool) (path : Str) :
    ∀ (es ts : List FSTree) (acc : List Str),
      walkEntries includeHidden path (es ++ ts) acc
        = match walkEntries includeHidden path es acc with
          | (a, some e) => (a, some e)
          | (a, none) => walkEntries includeHidden path ts a := by
  intro es
  induction es with
  | nil => intro ts acc; rfl
  | cons t rest ih =>
    intro ts acc
    rw [List.cons_append]
    show (match walkTree includeHidden (goJoin path t.name) t acc with
      | (acc', some e) => (acc', some e)
      | (acc', none) => walkEntries includeHidden path (rest ++ ts) acc') = _
    cases hw : walkTree includeHidden (goJoin path t.name) t acc with
    | mk acc' err =>
      cases err with
      | none =>
        simp only
        rw [ih ts acc']
        show _ = (match walkEntries includeHidden path (t :: rest) acc with
          | (a, some e) => (a, some e)
          | (a, none) => walkEntries includeHidden path ts a)
        rw [show walkEntries includeHidden path (t :: rest) acc
            = walkEntries includeHidden path rest acc' by
          show (match walkTree includeHidden (goJoin path t.name) t acc with
            | (a, some e) => (a, some e)
            | (a, none) => walkEntries includeHidden path rest a) = _
          rw [hw]]
      | some e =>
        simp only
        rw [show walkEntries includeHidden path (t :: rest) acc = (acc', some e) by
          show (match walkTree includeHidden (goJoin path t.name) t acc with
            | (a, some e) => (a, some e)
            | (a, none) => walkEntries includeHidden path rest a) = _
          rw [hw]]

/-- C8 counterexample: the walk appends `root/a.yaml` before hitting the
error on `root/b`, and `findYAMLFiles` returns the non-empty partial list
alongside the error. -/
theorem findYAMLFiles_partial_on_error_cx :
    findYAMLFiles
        (FSTree.dir (str "root")
          [FSTree.file (str "a.yaml"), FSTree.errNode (str "b")])
        (str "root") false
      = ([str "root/a.yaml"], some (str "root/b")) ∧
    ([str "root/a.yaml"] : List Str) ≠ [] := by
  constructor
  · decide
  · decide

/-- C8 (amended): an I/O error during the walk aborts discovery and is
surfaced to the caller, but the file list accompanying the error is the
PARTIAL list of YAML files collected before the error, which can be
non-empty (the caller discards it by returning the error).  Stated for a
root directory whose listing is `es ++ errNode m :: rest`, where walking
`es` succeeds with the partial collection `files`. -/
theorem findYAMLFiles_error_surfaced (name : Str) (es : List FSTree) (m : Str)
    (rest : List FSTree) (rootPath : Str) (includeHidden : Bool)
    (files : List Str)
    (hname : (!includeHidden && leadsWith name (str ".")) = false)
    (hprev : walkEntries includeHidden rootPath es [] = (files, none)) :
    findYAMLFiles (FSTree.dir name (es ++ FSTree.errNode m :: rest)) rootPath
        includeHidden
      = (files, some (goJoin rootPath m)) := by
  unfold findYAMLFiles
  rw [show walkTree includeHidden rootPath
      (FSTree.dir name (es ++ FSTree.errNode m :: rest)) []
      = walkEntries includeHidden rootPath (es ++ FSTree.errNode m :: rest) [] by
    unfold walkTree
    rw [if_neg (by simp [hname])]]
  rw [walkEntries_append includeHidden rootPath es (FSTree.errNode m :: rest) [],
    hprev]
  show walkEntries includeHidden rootPath (FSTree.errNode m :: rest) files
      = (files, some (goJoin rootPath m))
  rfl

/-- Witness for C8: the concrete erroring walk of the counterexample,
obtained through the amended theorem. -/
theorem findYAMLFiles_error_surfaced_witness :
    findYAMLFiles
        (FSTree.dir (str "root")
          [FSTree.file (str "a.yaml"), FSTree.errNode (str "b")])
        (str "root") false
      = ([str "root/a.yaml"], some (goJoin (str "root") (str "b"))) := by
  exact findYAMLFiles_error_surfaced (str "root") [FSTree.file (str "a.yaml")]
    (str "b") [] (str "root") false [str "root/a.yaml"] (by decide) (by decide)

/-- C10: with `includeHidden` false and a root directory whose own base
name begins with `"."` (for example `"."` itself or `".config"`), the
hidden-directory prune fires on the root before any descent:
`findYAMLFiles` returns no files and no error, whatever lies beneath. -/
theorem findYAMLFiles_hidden_root (name : Str) (entries : List FSTree)
    (rootPath : Str) (h : leadsWith name (str ".") = true) :
    findYAMLFiles (FSTree.dir name entries) rootPath false = ([], none) := by
  unfold findYAMLFiles walkTree
  simp [h]

/-- Witness for C10: scanning `"."` (and `"/repo/.config"`) with the
default flags finds nothing, even though a non-hidden subtree with a YAML
file lies beneath. -/
theorem findYAMLFiles_hidden_root_witness :
    findYAMLFiles
        (FSTree.dir (str ".")
          [FSTree.dir (str "sub") [FSTree.file (str "a.yaml")]])
        (str ".") false = ([], none) ∧
    findYAMLFiles
        (FSTree.dir (str ".config")
          [FSTree.dir (str "sub") [FSTree.file (str "a.yaml")]])
        (str "/repo/.config") false = ([], none) := by
  constructor
  · exact findYAMLFiles_hidden_root (str ".")
      [FSTree.dir (str "sub") [FSTree.file (str "a.yaml")]] (str ".") (by decide)
  · exact findYAMLFiles_hidden_root (str ".config")
      [FSTree.dir (str "sub") [FSTree.file (str "a.yaml")]] (str "/repo/.config")
      (by decide)

/-! ## C3: the report round-trip -/

theorem goSplit_ne_nil (sep : Char) : ∀ s : Str, goSplit sep s ≠ [] := by
  intro s
  cases s with
  | nil => simp [goSplit]
  | cons c rest =>
    unfold goSplit
    cases h : goSplit sep rest with
    | nil => simp
    | cons p ps =>
      by_cases hc : (c == sep) = true
      · simp [hc]
      · simp [hc]

theorem goSplit_sep_append (rest : Str) :
    ∀ l : Str, nl ∉ l → goSplit nl (l ++ nl :: rest) = l :: goSplit nl rest := by
  intro l
  induction l with
  | nil =>
    intro _
    rw [List.nil_append]
    cases h : goSplit nl rest with
    | nil => exact absurd h (goSplit_ne_nil nl rest)
    | cons p ps =>
      have hstep : goSplit nl (nl :: rest) = [] :: p :: ps := by
        conv_lhs => unfold goSplit
        rw [h]
        simp
      simp [hstep, h]
  | cons c cs ih =>
    intro hmem
    have hc : (c == nl) = false := by
      have hne : ¬(c = nl) := by
        intro hceq
        refine hmem ?_
        rw [hceq]
        exact List.mem_cons_self nl cs
      simpa using hne
    have hcs : nl ∉ cs := fun h => hmem (List.mem_cons_of_mem c h)
    have hstep : goSplit nl (c :: (cs ++ nl :: rest))
        = (c :: cs) :: goSplit nl rest := by
      conv_lhs => unfold goSplit
      rw [ih hcs]
      simp [hc]
    rw [List.cons_append, hstep]

theorem linesConcat_cons (l : Str) (ls : List Str) :
    linesConcat (l :: ls) = l ++ nl :: linesConcat ls := by
  simp [linesConcat]

theorem goSplit_linesConcat :
    ∀ ls : List Str, (∀ l ∈ ls, nl ∉ l) →
      goSplit nl (linesConcat ls) = ls ++ [[]] := by
  intro ls
  induction ls with
  | nil => intro _; rfl
  | cons l rest ih =>
    intro h
    rw [linesConcat_cons, goSplit_sep_append _ l (h l (List.mem_cons_self l rest)),
      ih (fun x hx => h x (List.mem_cons_of_mem l hx))]
    rfl

theorem map_dropCR_id : ∀ ls : List Str, (∀ l ∈ ls, dropCR l = l) →
    ls.map dropCR = ls := by
  intro ls
  induction ls with
  | nil => intro _; rfl
  | cons l rest ih =>
    intro h
    rw [List.map_cons, h l (List.mem_cons_self l rest),
      ih (fun x hx => h x (List.mem_cons_of_mem l hx))]

/-- Scanning the file written from a list of newline-free, carriage-return
clean lines recovers exactly those lines. -/
theorem scanLines_linesConcat (ls : List Str)
    (hnl : ∀ l ∈ ls, nl ∉ l) (hcr : ∀ l ∈ ls, dropCR l = l) :
    scanLines (linesConcat ls) = ls := by
  cases ls with
  | nil => rfl
  | cons l rest =>
    have hne : linesConcat (l :: rest) ≠ [] := by
      rw [linesConcat_cons]
      cases l <;> simp
    unfold scanLines
    rw [if_neg (by simpa using hne)]
    rw [goSplit_linesConcat (l :: rest) hnl]
    have hlast : ((l :: rest) ++ [[]] : List Str).getLast? = some ([] : Str) := by
      rw [List.getLast?_append_cons]
      rfl
    rw [hlast, if_pos rfl, List.dropLast_concat]
    exact map_dropCR_id (l :: rest) hcr

theorem goContains_head {s pat : Str} (h : leadsWith s pat = true) :
    goContains s pat = true := by
  unfold goContains
  rw [findSub_head h]
  rfl

theorem goContains_append_right (s : Str) {t pat : Str}
    (h : goContains t pat = true) : goContains (s ++ t) pat = true := by
  induction s with
  | nil => exact h
  | cons a as ih =>
    unfold goContains at ih ⊢
    rw [List.cons_append]
    by_cases hl : leadsWith (a :: (as ++ t)) pat = true
    · rw [findSub_head hl]
      rfl
    · rw [findSub_cons_neg (by simpa using hl)]
      cases hfs : findSub (as ++ t) pat with
      | none => rw [hfs] at ih; simp at ih
      | some n => simp

theorem goTrimSuffix_append_single (d : Str) (c : Char) :
    goTrimSuffix (d ++ [c]) [c] = d := by
  unfold goTrimSuffix endsWith
  rw [show (d ++ [c]).reverse = c :: d.reverse by simp]
  rw [show ([c] : Str).reverse = [c] by simp]
  rw [show leadsWith (c :: d.reverse) [c] = true by simp [leadsWith]]
  rw [if_pos rfl]
  rw [show List.length (d ++ [c]) - ([c] : Str).length = d.length by simp]
  exact List.take_left d [c]

theorem dirHeaderLine_decomp (dir : Str) :
    dirHeaderLine dir
      = (str "## [" ++ dir ++ str "/") ++ ']' ::
          (str "(../" ++ dir ++ str "/)") := by
  unfold dirHeaderLine
  simp [str, List.append_assoc]

theorem entryLine_decomp_rbrack (dir : Str) (e : Str × Str) :
    entryLine dir e
      = (str "- [" ++ e.1) ++ ']' ::
          (str "(../" ++ dir ++ str "/" ++ e.1 ++ str "): " ++ e.2) := by
  unfold entryLine
  simp [str, List.append_assoc]

theorem entryLine_decomp_colon (dir : Str) (e : Str × Str) :
    entryLine dir e
      = ((str "- [" ++ e.1 ++ str "](../" ++ dir ++ str "/" ++ e.1 ++ [')'])
          ++ [':', ' ']) ++ e.2 := by
  unfold entryLine
  simp [str, List.append_assoc]

theorem take_append_add {α : Type} :
    ∀ (l1 l2 : List α) (i : Nat), (l1 ++ l2).take (l1.length + i) = l1 ++ l2.take i := by
  intro l1
  induction l1 with
  | nil => intro l2 i; simp
  | cons a as ih =>
    intro l2 i
    rw [List.cons_append, List.length_cons,
      show as.length + 1 + i = (as.length + i) + 1 by omega,
      List.take_succ_cons, ih, List.cons_append]

theorem parse_header_constructed (dir : Str) (rest : List Str) (d0 : Str) (m : GoMap)
    (hbr : ']' ∉ dir) :
    parseSummaryLoop (dirHeaderLine dir :: rest) d0 m = parseSummaryLoop rest dir m := by
  have hform : dirHeaderLine dir
      = str "## [" ++ (dir ++ ('/' :: (str "](../" ++ (dir ++ str "/)")))) := by
    unfold dirHeaderLine
    simp [str, List.append_assoc]
  have hlead : leadsWith (dirHeaderLine dir) (str "## [") = true := by
    rw [hform]
    exact leadsWith_append_self _ _
  have hcont : goContains (dirHeaderLine dir) (str "](") = true := by
    rw [hform]
    refine goContains_append_right (str "## [") ?_
    refine goContains_append_right dir ?_
    rw [show ('/' : Char) :: (str "](../" ++ (dir ++ str "/)"))
        = ['/'] ++ (str "](" ++ (str "../" ++ (dir ++ str "/)"))) from rfl]
    exact goContains_append_right ['/'] (goContains_head (leadsWith_append_self _ _))
  have hstop : findSub (dirHeaderLine dir) (str "]")
      = some ((str "## [" ++ dir ++ str "/").length) := by
    rw [dirHeaderLine_decomp, str_rbrack]
    refine findSub_single _ _ ?_
    intro hmem
    rcases List.mem_append.mp hmem with h1 | h1
    · rcases List.mem_append.mp h1 with h2 | h2
      · exact absurd h2 (by decide)
      · exact hbr h2
    · exact absurd h1 (by decide)
  have hlen : (str "## [" ++ dir ++ str "/").length = dir.length + 5 := by
    simp [str]
  have hgt : 4 < (str "## [" ++ dir ++ str "/").length := by
    rw [hlen]
    omega
  rw [parseSummaryLoop_header (dirHeaderLine dir) rest d0 m hlead hcont _ hstop hgt]
  have hslice : slice (dirHeaderLine dir) 4 ((str "## [" ++ dir ++ str "/").length)
      = dir ++ ['/'] := by
    unfold slice
    rw [hform]
    rw [show (4 : Nat) = (str "## [").length from rfl, List.drop_left]
    rw [show (str "## [" ++ dir ++ str "/").length - (str "## [").length
        = dir.length + 1 by
      rw [hlen]
      simp [str]]
    rw [show dir ++ ('/' :: (str "](../" ++ (dir ++ str "/)")))
        = dir ++ (['/'] ++ (str "](../" ++ (dir ++ str "/)"))) from rfl]
    rw [take_append_add dir _ 1]
    rw [show (['/'] ++ (str "](../" ++ (dir ++ str "/)"))).take 1 = ['/'] from rfl]
  rw [hslice, show str "/" = ['/'] from rfl, goTrimSuffix_append_single]

theorem parse_entry_constructed (dir : Str) (e : Str × Str) (rest : List Str) (m : GoMap)
    (hd : dir ≠ []) (hn : e.1 ≠ [])
    (hbr1 : ']' ∉ e.1) (hc1 : ':' ∉ e.1) (hc2 : ':' ∉ dir) :
    parseSummaryLoop (entryLine dir e :: rest) dir m
      = parseSummaryLoop rest dir
          (mapInsert m (goJoin dir e.1) (goTrimSpace e.2)) := by
  have hform : entryLine dir e
      = str "- [" ++ (e.1 ++ (']' ::
          (str "(../" ++ (dir ++ ('/' :: (e.1 ++ (str "): " ++ e.2))))))) := by
    unfold entryLine
    simp [str, List.append_assoc]
  have hlead : leadsWith (entryLine dir e) (str "- [") = true := by
    rw [hform]
    exact leadsWith_append_self _ _
  have hcont : goContains (entryLine dir e) (str "](") = true := by
    rw [hform]
    refine goContains_append_right (str "- [") ?_
    refine goContains_append_right e.1 ?_
    rw [show (']' : Char) ::
          (str "(../" ++ (dir ++ ('/' :: (e.1 ++ (str "): " ++ e.2)))))
        = str "](" ++ (str "../" ++ (dir ++ ('/' :: (e.1 ++ (str "): " ++ e.2)))))
        from rfl]
    exact goContains_head (leadsWith_append_self _ _)
  have hstop : findSub (entryLine dir e) (str "]")
      = some ((str "- [" ++ e.1).length) := by
    rw [entryLine_decomp_rbrack, str_rbrack]
    refine findSub_single _ _ ?_
    intro hmem
    rcases List.mem_append.mp hmem with h | h
    · exact absurd h (by decide)
    · exact hbr1 h
  have hgt : 3 < (str "- [" ++ e.1).length := by
    have := List.length_pos.mpr hn
    simp only [List.length_append, show (str "- [").length = 3 from rfl]
    omega
  have hPmem : ':' ∉ (str "- [" ++ e.1 ++ str "](../" ++ dir ++ str "/"
      ++ e.1 ++ [')']) := by
    intro hmem
    simp only [List.mem_append] at hmem
    rcases hmem with (((((h | h) | h) | h) | h) | h) | h
    · exact absurd h (by decide)
    · exact hc1 h
    · exact absurd h (by decide)
    · exact hc2 h
    · exact absurd h (by decide)
    · exact hc1 h
    · exact absurd h (by decide)
  have hcolon : findSub (entryLine dir e) (str ": ")
      = some ((str "- [" ++ e.1 ++ str "](../" ++ dir ++ str "/"
          ++ e.1 ++ [')']).length) := by
    rw [entryLine_decomp_colon, str_colonSpace, List.append_assoc]
    rw [show ([':', ' '] : Str) ++ e.2 = ':' :: ' ' :: e.2 from rfl]
    exact findSub_pair _ _ hPmem
  have hcpos : 0 < (str "- [" ++ e.1 ++ str "](../" ++ dir ++ str "/"
      ++ e.1 ++ [')']).length := by
    simp only [List.length_append, show (str "- [").length = 3 from rfl,
      show (str "](../").length = 5 from rfl, show (str "/").length = 1 from rfl,
      show ([')'] : Str).length = 1 from rfl]
    omega
  rw [parseSummaryLoop_entry (entryLine dir e) rest dir m hd hlead hcont
    _ hstop hgt _ hcolon hcpos]
  have hslice : slice (entryLine dir e) 3 ((str "- [" ++ e.1).length) = e.1 := by
    unfold slice
    rw [hform]
    rw [show (3 : Nat) = (str "- [").length from rfl, List.drop_left]
    rw [show (str "- [" ++ e.1).length - (str "- [").length = e.1.length by
      simp only [List.length_append, show (str "- [").length = 3 from rfl]
      omega]
    exact List.take_left _ _
  have hdrop : (entryLine dir e).drop
      ((str "- [" ++ e.1 ++ str "](../" ++ dir ++ str "/"
        ++ e.1 ++ [')']).length + 2) = e.2 := by
    rw [entryLine_decomp_colon]
    rw [show (str "- [" ++ e.1 ++ str "](../" ++ dir ++ str "/"
          ++ e.1 ++ [')']).length + 2
        = ((str "- [" ++ e.1 ++ str "](../" ++ dir ++ str "/"
            ++ e.1 ++ [')']) ++ [':', ' ']).length by
      simp only [List.length_append, show ([':', ' '] : Str).length = 2 from rfl]]
    exact List.drop_left _ _
  rw [hslice, hdrop]

/-! Well-formedness of the grouped data as rendered and re-parsed.  The
conditions name exactly the characters whose presence would disturb the
line structure (`'\n'`, a trailing `'\r'`) or the header/entry scanning
(`']'` for the link text, `':'` for the summary separator, `'/'` inside a
file name), and the path shapes on which `filepath.Join` is the plain
`"/"`-concatenation (so that the parser reconstructs the rendered key
verbatim rather than `Clean`-rewriting it). -/

/-- A path component that `path.Clean` keeps verbatim: nonempty and not
the special `"."` or `".."`. -/
abbrev plainComp (c : Str) : Prop := c ≠ [] ∧ c ≠ str "." ∧ c ≠ str ".."

/-- A directory key already in `Clean` normal form (and relative): the
single component `"."`, or only plain `'/'`-separated components. -/
abbrev cleanDir (d : Str) : Prop :=
  d = str "." ∨ ∀ c ∈ goSplit '/' d, plainComp c

/-- A file name that is a single plain path component. -/
abbrev plainName (n : Str) : Prop :=
  n ≠ [] ∧ '/' ∉ n ∧ n ≠ str "." ∧ n ≠ str ".."

/-- A directory key that survives the round trip: nonempty, free of
newline, carriage return, `']'` and `':'`, and `Clean`-normal. -/
abbrev wfDir (d : Str) : Prop :=
  d ≠ [] ∧ nl ∉ d ∧ cr ∉ d ∧ ']' ∉ d ∧ ':' ∉ d ∧ cleanDir d

/-- A file name that survives the round trip. -/
abbrev wfName (n : Str) : Prop :=
  n ≠ [] ∧ '/' ∉ n ∧ nl ∉ n ∧ cr ∉ n ∧ ']' ∉ n ∧ ':' ∉ n ∧
    n ≠ str "." ∧ n ≠ str ".."

/-- A well-formed file name is in particular a plain path component. -/
theorem wfName_plain {n : Str} (h : wfName n) : plainName n :=
  ⟨h.1, h.2.1, h.2.2.2.2.2.2.1, h.2.2.2.2.2.2.2⟩

/-- A summary that survives the round trip: newline- and
carriage-return-free and already trimmed (the parser stores the trimmed
text, cmd/root.go:268). -/
abbrev wfSummary (s : Str) : Prop := nl ∉ s ∧ cr ∉ s ∧ goTrimSpace s = s

/-- Well-formed grouped input: distinct directory keys, distinct file
names per bucket, and well-formed components throughout. -/
abbrev wfGroup (g : GoGroup) : Prop :=
  (g.map (fun b => b.1)).Nodup ∧
  ∀ b ∈ g, wfDir b.1 ∧ (b.2.map Prod.fst).Nodup ∧
    ∀ e ∈ b.2, wfName e.1 ∧ wfSummary e.2

/-- The map entries one parsed section contributes, in entry order. -/
def insertEntries (m : GoMap) (dir : Str) : List (Str × Str) → GoMap
  | [] => m
  | e :: es => insertEntries (mapInsert m (goJoin dir e.1) e.2) dir es

theorem parse_entries (dir : Str) :
    ∀ (es : List (Str × Str)) (rest : List Str) (m : GoMap),
      dir ≠ [] → ':' ∉ dir →
      (∀ e ∈ es, wfName e.1 ∧ wfSummary e.2) →
      parseSummaryLoop (es.map (entryLine dir) ++ rest) dir m
        = parseSummaryLoop rest dir (insertEntries m dir es) := by
  intro es
  induction es with
  | nil => intro rest m _ _ _; rfl
  | cons e es ih =>
    intro rest m hd hcd hwf
    obtain ⟨hwfn, hwfs⟩ := hwf e (List.mem_cons_self e es)
    rw [List.map_cons, List.cons_append,
      parse_entry_constructed dir e _ m hd hwfn.1 hwfn.2.2.2.2.1 hwfn.2.2.2.2.2.1 hcd,
      hwfs.2.2,
      show insertEntries m dir (e :: es)
        = insertEntries (mapInsert m (goJoin dir e.1) e.2) dir es from rfl]
    exact ih _ _ hd hcd (fun x hx => hwf x (List.mem_cons_of_mem e hx))

theorem parse_sections (g : GoGroup) :
    ∀ (ds : List Str) (d0 : Str) (m : GoMap),
      (∀ d ∈ ds, wfDir d ∧
        ∀ e ∈ sortEntries (lookupGroup g d), wfName e.1 ∧ wfSummary e.2) →
      parseSummaryLoop
        (ds.foldr (fun dir acc =>
          ([] : Str) :: dirHeaderLine dir ::
            ((sortEntries (lookupGroup g dir)).map (entryLine dir) ++ acc)) [])
        d0 m
      = ds.foldl
          (fun m2 dir => insertEntries m2 dir (sortEntries (lookupGroup g dir))) m := by
  intro ds
  induction ds with
  | nil => intro d0 m _; rfl
  | cons d dt ih =>
    intro d0 m hwf
    obtain ⟨hwd, hwe⟩ := hwf d (List.mem_cons_self d dt)
    rw [List.foldr_cons,
      parseSummaryLoop_skip _ d0 m (by decide) (by decide),
      parse_header_constructed d _ d0 m hwd.2.2.2.1,
      parse_entries d (sortEntries (lookupGroup g d)) _ m hwd.1 hwd.2.2.2.2.1 hwe,
      List.foldl_cons]
    exact ih _ _ (fun x hx => hwf x (List.mem_cons_of_mem d hx))

theorem lookupGroup_self_of_nodup :
    ∀ (g : GoGroup), (g.map (fun b => b.1)).Nodup →
      ∀ b ∈ g, lookupGroup g b.1 = b.2 := by
  intro g
  induction g with
  | nil => intro _ b hb; simp at hb
  | cons b0 bs ih =>
    intro hnd b hb
    rcases List.nodup_cons.mp hnd with ⟨hb0, hndbs⟩
    rcases List.mem_cons.mp hb with rfl | hmem
    · rw [lookupGroup, if_pos (by simp)]
    · have hne : (b0.1 == b.1) = false := by
        simp only [beq_eq_false_iff_ne, ne_eq]
        intro hc
        apply hb0
        show b0.1 ∈ List.map (fun b => b.1) bs
        rw [hc]
        exact List.mem_map.mpr ⟨b, hmem, rfl⟩
      rw [lookupGroup, if_neg (by simp [hne])]
      exact ih hndbs b hmem

theorem parse_writeMarkdownLines (g : GoGroup)
    (hwf : ∀ d ∈ sortStrs (g.map (fun b => b.1)), wfDir d ∧
      ∀ e ∈ sortEntries (lookupGroup g d), wfName e.1 ∧ wfSummary e.2) :
    parseSummaryLines (writeMarkdownLines g)
      = (sortStrs (g.map (fun b => b.1))).foldl
          (fun m2 dir => insertEntries m2 dir (sortEntries (lookupGroup g dir))) [] := by
  unfold writeMarkdownLines
  rw [parseSummaryLines_no_header_skip headerLines _ (by decide)]
  unfold parseSummaryLines
  exact parse_sections g _ [] [] hwf

/-! Cleanliness of the rendered lines: newline-free and fixed under the
scanner's carriage-return stripping, so that scanning the written file
recovers exactly the rendered lines. -/

theorem dropCR_eq_self {l : Str} (h : l.getLast? ≠ some cr) : dropCR l = l := by
  unfold dropCR goTrimSuffix endsWith
  cases hrev : l.reverse with
  | nil => rw [if_neg (by decide)]
  | cons a as =>
    have ha : a ≠ cr := by
      intro hc
      apply h
      rw [← List.head?_reverse, hrev, hc]
      rfl
    rw [if_neg ?_]
    intro hcon
    rw [show ([cr] : Str).reverse = [cr] from rfl] at hcon
    simp only [leadsWith, Bool.and_eq_true, beq_iff_eq] at hcon
    exact ha hcon.1

theorem getLast_ne_of_not_mem {l : Str} {c : Char} (h : c ∉ l) :
    l.getLast? ≠ some c := by
  intro hc
  apply h
  rw [← List.mem_reverse]
  apply List.mem_of_mem_head?
  rw [List.head?_reverse]
  exact Option.mem_def.mpr hc

theorem dropCR_dirHeaderLine (d : Str) : dropCR (dirHeaderLine d) = dirHeaderLine d := by
  refine dropCR_eq_self ?_
  unfold dirHeaderLine
  rw [List.getLast?_append_of_ne_nil _ (by decide)]
  decide

theorem dropCR_entryLine (d : Str) (e : Str × Str) (hcr : cr ∉ e.2) :
    dropCR (entryLine d e) = entryLine d e := by
  refine dropCR_eq_self ?_
  unfold entryLine
  cases hs : e.2 with
  | nil =>
    rw [List.append_nil, List.getLast?_append_of_ne_nil _ (by decide)]
    decide
  | cons a as =>
    rw [List.getLast?_append_of_ne_nil _ (by simp)]
    rw [← hs]
    exact getLast_ne_of_not_mem hcr

theorem nl_not_mem_dirHeaderLine {d : Str} (h : nl ∉ d) : nl ∉ dirHeaderLine d := by
  unfold dirHeaderLine
  intro hmem
  simp only [List.mem_append] at hmem
  rcases hmem with (((h1 | h1) | h1) | h1) | h1
  · exact absurd h1 (by decide)
  · exact h h1
  · exact absurd h1 (by decide)
  · exact h h1
  · exact absurd h1 (by decide)

theorem nl_not_mem_entryLine {d : Str} {e : Str × Str}
    (hd : nl ∉ d) (hn : nl ∉ e.1) (hs : nl ∉ e.2) : nl ∉ entryLine d e := by
  unfold entryLine
  intro hmem
  simp only [List.mem_append] at hmem
  rcases hmem with ((((((h1 | h1) | h1) | h1) | h1) | h1) | h1) | h1
  · exact absurd h1 (by decide)
  · exact hn h1
  · exact absurd h1 (by decide)
  · exact hd h1
  · exact absurd h1 (by decide)
  · exact hn h1
  · exact absurd h1 (by decide)
  · exact hs h1

theorem foldr_sections_cases (g : GoGroup) (y : Str) :
    ∀ ds : List Str,
      y ∈ ds.foldr
        (fun dir acc =>
          ([] : Str) :: dirHeaderLine dir ::
            ((sortEntries (lookupGroup g dir)).map (entryLine dir) ++ acc)) [] →
      y = [] ∨ ∃ d ∈ ds, y = dirHeaderLine d ∨
        ∃ e ∈ sortEntries (lookupGroup g d), y = entryLine d e := by
  intro ds
  induction ds with
  | nil => intro h; simp at h
  | cons d dt ih =>
    intro h
    rw [List.foldr_cons] at h
    rcases List.mem_cons.mp h with rfl | h
    · exact Or.inl rfl
    rcases List.mem_cons.mp h with rfl | h
    · exact Or.inr ⟨d, List.mem_cons_self d dt, Or.inl rfl⟩
    rcases List.mem_append.mp h with h | h
    · obtain ⟨e, he, rfl⟩ := List.mem_map.mp h
      exact Or.inr ⟨d, List.mem_cons_self d dt, Or.inr ⟨e, he, rfl⟩⟩
    · rcases ih h with h | ⟨d0, hd0, hcase⟩
      · exact Or.inl h
      · exact Or.inr ⟨d0, List.mem_cons_of_mem d hd0, hcase⟩

theorem wfGroup_sorted_dirs (g : GoGroup) (hwf : wfGroup g) :
    ∀ d ∈ sortStrs (g.map (fun b => b.1)), wfDir d ∧
      ∀ e ∈ sortEntries (lookupGroup g d), wfName e.1 ∧ wfSummary e.2 := by
  intro d hd
  have hdk : d ∈ g.map (fun b => b.1) := ((sortBy_perm strLe _).mem_iff).mp hd
  obtain ⟨b, hb, hbd⟩ := List.mem_map.mp hdk
  have hbd' : b.1 = d := hbd
  obtain ⟨hwd, _, hents⟩ := hwf.2 b hb
  constructor
  · rw [← hbd']
    exact hwd
  · intro e he
    have he2 : e ∈ lookupGroup g d := ((sortBy_perm _ _).mem_iff).mp he
    rw [← hbd', lookupGroup_self_of_nodup g hwf.1 b hb] at he2
    exact hents e he2

theorem writeMarkdownLines_clean (g : GoGroup) (hwf : wfGroup g) :
    ∀ l ∈ writeMarkdownLines g, nl ∉ l ∧ dropCR l = l := by
  intro l hl
  unfold writeMarkdownLines at hl
  rcases List.mem_append.mp hl with hh | hf
  · exact (by decide : ∀ x ∈ headerLines, nl ∉ x ∧ dropCR x = x) l hh
  · rcases foldr_sections_cases g l _ hf with rfl | ⟨d, hd, hcase⟩
    · exact ⟨by simp, by decide⟩
    · obtain ⟨hwd, hents⟩ := wfGroup_sorted_dirs g hwf d hd
      rcases hcase with rfl | ⟨e, he, rfl⟩
      · exact ⟨nl_not_mem_dirHeaderLine hwd.2.1, dropCR_dirHeaderLine d⟩
      · obtain ⟨hwn, hws⟩ := hents e he
        exact ⟨nl_not_mem_entryLine hwd.2.1 hwn.2.2.1 hws.1,
          dropCR_entryLine d e hws.2.1⟩

/-- Scanning the written report recovers exactly the rendered lines. -/
theorem scanLines_writeMarkdownSummary (g : GoGroup) (hwf : wfGroup g) :
    scanLines (writeMarkdownSummary g) = writeMarkdownLines g := by
  unfold writeMarkdownSummary
  exact scanLines_linesConcat _
    (fun l hl => (writeMarkdownLines_clean g hwf l hl).1)
    (fun l hl => (writeMarkdownLines_clean g hwf l hl).2)

/-! Injectivity of the rendered key `goJoin dir name` on well-formed
components: the separator before the name is the LAST `'/'` of the key,
because names are `'/'`-free. -/

theorem sep_split_inj {c : Char} :
    ∀ (xs : Str) {ys as bs : Str}, c ∉ xs → c ∉ ys →
      xs ++ c :: as = ys ++ c :: bs → xs = ys ∧ as = bs := by
  intro xs
  induction xs with
  | nil =>
    intro ys as bs _ hys h
    cases ys with
    | nil =>
      rw [List.nil_append, List.nil_append] at h
      injection h with _ h2
      exact ⟨rfl, h2⟩
    | cons y yt =>
      rw [List.nil_append, List.cons_append] at h
      injection h with h1 _
      exact absurd (by rw [h1]; exact List.mem_cons_self y yt) hys
  | cons x xt ih =>
    intro ys as bs hxs hys h
    cases ys with
    | nil =>
      rw [List.nil_append, List.cons_append] at h
      injection h with h1 _
      exact absurd (by rw [← h1]; exact List.mem_cons_self x xt) hxs
    | cons y yt =>
      rw [List.cons_append, List.cons_append] at h
      injection h with h1 h2
      obtain ⟨hxy, hab⟩ := ih (fun hc => hxs (List.mem_cons_of_mem x hc))
        (fun hc => hys (List.mem_cons_of_mem y hc)) h2
      constructor
      · rw [h1, hxy]
      · exact hab

/-! `filepath.Join` on the shapes this program produces.  `Clean` leaves
the concatenation of a `Clean`-normal relative directory and a plain name
untouched (and reduces `"./name"` to `"name"`), so on well-formed inputs
`goJoin` coincides with the plain `"/"`-concatenation `joinPlain`. -/

theorem goSplit_sep_cons (sep : Char) (t : Str) :
    goSplit sep (sep :: t) = [] :: goSplit sep t := by
  cases h : goSplit sep t with
  | nil => exact absurd h (goSplit_ne_nil sep t)
  | cons p ps =>
    conv_lhs => unfold goSplit
    rw [h]
    simp

theorem goSplit_append_sep (sep : Char) (v : Str) :
    ∀ u : Str, goSplit sep (u ++ sep :: v) = goSplit sep u ++ goSplit sep v := by
  intro u
  induction u with
  | nil =>
    rw [List.nil_append, goSplit_sep_cons]
    rfl
  | cons c cs ih =>
    rw [List.cons_append]
    cases h1 : goSplit sep (cs ++ sep :: v) with
    | nil => exact absurd h1 (goSplit_ne_nil _ _)
    | cons p ps =>
      cases h2 : goSplit sep cs with
      | nil => exact absurd h2 (goSplit_ne_nil sep cs)
      | cons q qs =>
        have hih := ih
        rw [h1, h2, List.cons_append] at hih
        injection hih with hpq hps
        have hstepL : goSplit sep (c :: (cs ++ sep :: v))
            = if c == sep then [] :: p :: ps else (c :: p) :: ps := by
          conv_lhs => unfold goSplit
          rw [h1]
        have hstepR : goSplit sep (c :: cs)
            = if c == sep then [] :: q :: qs else (c :: q) :: qs := by
          conv_lhs => unfold goSplit
          rw [h2]
        rw [hstepL, hstepR]
        by_cases hc : (c == sep) = true
        · rw [if_pos hc, if_pos hc, hpq, hps]
          rfl
        · rw [if_neg hc, if_neg hc, hpq, hps]
          rfl

theorem goSplit_no_sep (sep : Char) :
    ∀ s : Str, sep ∉ s → goSplit sep s = [s] := by
  intro s
  induction s with
  | nil => intro _; rfl
  | cons c rest ih =>
    intro h
    have hc : (c == sep) = false := by
      simp only [beq_eq_false_iff_ne, ne_eq]
      exact fun hceq => h (by rw [hceq]; exact List.mem_cons_self sep rest)
    have hrest := ih (fun hx => h (List.mem_cons_of_mem c hx))
    conv_lhs => unfold goSplit
    rw [hrest]
    simp [hc]

theorem joinWith_goSplit (sep : Char) :
    ∀ s : Str, joinWith [sep] (goSplit sep s) = s := by
  intro s
  induction s with
  | nil => rfl
  | cons c rest ih =>
    cases h : goSplit sep rest with
    | nil => exact absurd h (goSplit_ne_nil sep rest)
    | cons p ps =>
      have hstep : goSplit sep (c :: rest)
          = if c == sep then [] :: p :: ps else (c :: p) :: ps := by
        conv_lhs => unfold goSplit
        rw [h]
      rw [hstep]
      rw [h] at ih
      by_cases hc : (c == sep) = true
      · rw [if_pos hc,
          show joinWith [sep] ([] :: p :: ps)
            = [] ++ [sep] ++ joinWith [sep] (p :: ps) from rfl,
          ih]
        have hceq : c = sep := by simpa using hc
        rw [hceq]
        rfl
      · rw [if_neg hc]
        cases ps with
        | nil =>
          rw [show joinWith [sep] [c :: p] = c :: p from rfl]
          rw [show joinWith [sep] [p] = p from rfl] at ih
          rw [ih]
        | cons q qs =>
          rw [show joinWith [sep] ((c :: p) :: q :: qs)
              = (c :: p) ++ [sep] ++ joinWith [sep] (q :: qs) from rfl]
          rw [show joinWith [sep] (p :: q :: qs)
              = p ++ [sep] ++ joinWith [sep] (q :: qs) from rfl] at ih
          rw [← ih]
          simp

theorem cleanComponents_plain :
    ∀ (cs : List Str) (acc : List Str), (∀ c ∈ cs, plainComp c) →
      cleanComponents false acc cs = cs.reverse ++ acc := by
  intro cs
  induction cs with
  | nil => intro acc _; simp [cleanComponents]
  | cons c cs ih =>
    intro acc h
    obtain ⟨h1, h2, h3⟩ := h c (List.mem_cons_self c cs)
    rw [show cleanComponents false acc (c :: cs)
        = cleanComponents false (c :: acc) cs from by
      conv_lhs => unfold cleanComponents
      rw [if_neg (by simp [h1, h2]), if_neg h3]]
    rw [ih _ (fun x hx => h x (List.mem_cons_of_mem c hx))]
    simp

theorem leadsWith_slash_false {d : Str}
    (hd : ∀ c ∈ goSplit '/' d, plainComp c) (t : Str) :
    leadsWith (d ++ t) (str "/") = false := by
  cases d with
  | nil => exact absurd rfl (hd [] (by simp [goSplit])).1
  | cons x xs =>
    by_cases hx : x = '/'
    · exfalso
      subst hx
      refine (hd [] ?_).1 rfl
      rw [goSplit_sep_cons '/' xs]
      exact List.mem_cons_self _ _
    · rw [List.cons_append]
      exact leadsWith_head_ne _ _ hx

theorem goClean_of_comps {p : Str} (hne : ¬(p = []))
    (hroot : leadsWith p (str "/") = false)
    {cs : List Str} (hcs : cleanComponents false [] (goSplit '/' p) = cs.reverse)
    (hne2 : ¬(cs.reverse = [])) :
    goClean p = joinWith (str "/") cs := by
  unfold goClean
  rw [if_neg hne, hroot, if_neg (by simp), hcs, if_neg hne2, List.reverse_reverse]

/-- The `"/"`-concatenation `filepath.Join` reduces to on the inputs this
program renders. -/
def joinPlain (a b : Str) : Str := if a == str "." then b else a ++ str "/" ++ b

theorem goJoin_eq_joinPlain {d n : Str} (hd : cleanDir d) (hn : plainName n) :
    goJoin d n = joinPlain d n := by
  obtain ⟨hn1, hn2, hn3, hn4⟩ := hn
  have hplain : ∀ c ∈ ([n] : List Str), plainComp c := by
    intro c hc
    rw [List.mem_singleton] at hc
    rw [hc]
    exact ⟨hn1, hn3, hn4⟩
  rcases hd with rfl | hd
  · have hroot : leadsWith ((['.'] : Str) ++ '/' :: n) (str "/") = false := by
      rw [show ((['.'] : Str) ++ '/' :: n) = '.' :: '/' :: n from rfl]
      exact leadsWith_head_ne _ _ (by decide)
    have hcs : cleanComponents false [] (goSplit '/' ((['.'] : Str) ++ '/' :: n))
        = ([n] : List Str).reverse := by
      rw [goSplit_append_sep '/' n ['.'],
        show goSplit '/' (['.'] : Str) = [['.']] from by decide,
        goSplit_no_sep '/' n hn2,
        show ([['.']] : List Str) ++ [n] = [['.'], n] from rfl]
      rw [show cleanComponents false [] [['.'], n]
          = cleanComponents false [] [n] from by
        conv_lhs => unfold cleanComponents
        rw [if_pos (Or.inr (by decide))]]
      rw [cleanComponents_plain [n] [] hplain]
      simp
    rw [show joinPlain (str ".") n = n from by
      unfold joinPlain
      rw [if_pos (by decide)]]
    unfold goJoin
    rw [if_neg (by decide), if_neg hn1]
    rw [show (str "." ++ '/' :: n) = (['.'] : Str) ++ '/' :: n from rfl]
    rw [goClean_of_comps (by simp) hroot hcs (by simp)]
    rfl
  · have hdd : ∀ c ∈ goSplit '/' d ++ [n], plainComp c := by
      intro c hc
      rcases List.mem_append.mp hc with hc | hc
      · exact hd c hc
      · exact hplain c hc
    have hdne : ¬(d = []) := by
      intro hdnil
      exact absurd rfl (hd [] (by rw [hdnil]; simp [goSplit])).1
    have hcs : cleanComponents false [] (goSplit '/' (d ++ '/' :: n))
        = (goSplit '/' d ++ [n]).reverse := by
      rw [goSplit_append_sep '/' n d, goSplit_no_sep '/' n hn2]
      rw [cleanComponents_plain _ [] hdd]
      simp
    have hjp : joinPlain d n = d ++ '/' :: n := by
      have hne_dot : (d == str ".") = false := by
        simp only [beq_eq_false_iff_ne, ne_eq]
        intro hdeq
        subst hdeq
        exact absurd rfl ((hd ['.'] (by decide)).2.1)
      unfold joinPlain
      rw [if_neg (by simp [hne_dot]), List.append_assoc]
      rfl
    rw [hjp]
    unfold goJoin
    rw [if_neg hdne, if_neg hn1]
    rw [goClean_of_comps (by simp) (leadsWith_slash_false hd ('/' :: n)) hcs
      (by simp)]
    rw [show (str "/" : Str) = ['/'] from rfl, ← goSplit_no_sep '/' n hn2,
      ← goSplit_append_sep '/' n d, joinWith_goSplit]

theorem joinPlain_inj_right (d : Str) {n n' : Str}
    (h : joinPlain d n = joinPlain d n') : n = n' := by
  unfold joinPlain at h
  by_cases hd : (d == str ".") = true
  · rwa [if_pos hd, if_pos hd] at h
  · rw [if_neg (by simp [hd]), if_neg (by simp [hd])] at h
    exact List.append_cancel_left h

theorem joinPlain_inj {d n d' n' : Str}
    (hn : '/' ∉ n) (hn' : '/' ∉ n')
    (h : joinPlain d n = joinPlain d' n') : d = d' ∧ n = n' := by
  unfold joinPlain at h
  by_cases h1 : (d == str ".") = true
  · by_cases h2 : (d' == str ".") = true
    · rw [if_pos h1, if_pos h2] at h
      refine ⟨?_, h⟩
      rw [show d = str "." from by simpa using h1,
        show d' = str "." from by simpa using h2]
    · rw [if_pos h1, if_neg (by simp [h2])] at h
      exfalso
      apply hn
      rw [h, List.append_assoc]
      exact List.mem_append_right _ (List.mem_append_left _ (by decide))
  · by_cases h2 : (d' == str ".") = true
    · rw [if_neg (by simp [h1]), if_pos h2] at h
      exfalso
      apply hn'
      rw [← h, List.append_assoc]
      exact List.mem_append_right _ (List.mem_append_left _ (by decide))
    · rw [if_neg (by simp [h1]), if_neg (by simp [h2])] at h
      rw [List.append_assoc, List.append_assoc,
        show str "/" ++ n = '/' :: n from rfl,
        show str "/" ++ n' = '/' :: n' from rfl] at h
      have hrev : n.reverse ++ '/' :: d.reverse
          = n'.reverse ++ '/' :: d'.reverse := by
        have h2 := congrArg List.reverse h
        simpa [List.reverse_append, List.append_assoc] using h2
      obtain ⟨hnn, hdd⟩ := sep_split_inj n.reverse
        (by simpa using hn) (by simpa using hn') hrev
      exact ⟨List.reverse_injective hdd, List.reverse_injective hnn⟩

theorem goJoin_inj_right {d : Str} (hd : cleanDir d) {n n' : Str}
    (hn : plainName n) (hn' : plainName n')
    (h : goJoin d n = goJoin d n') : n = n' := by
  rw [goJoin_eq_joinPlain hd hn, goJoin_eq_joinPlain hd hn'] at h
  exact joinPlain_inj_right d h

theorem goJoin_inj {d n d' n' : Str} (hd : cleanDir d) (hd' : cleanDir d')
    (hn : plainName n) (hn' : plainName n')
    (h : goJoin d n = goJoin d' n') : d = d' ∧ n = n' := by
  rw [goJoin_eq_joinPlain hd hn, goJoin_eq_joinPlain hd' hn'] at h
  exact joinPlain_inj hn.2.1 hn'.2.1 h

/-- The (relative path → summary) pairs used to render a grouped input:
for each bucket `(dir, entries)` and each entry `(name, summary)` the pair
`(dir/name, summary)` (spec-side description of what the report encodes). -/
def renderedPairs (g : GoGroup) : GoMap :=
  g.foldr (fun b acc => b.2.map (fun e => (goJoin b.1 e.1, e.2)) ++ acc) []

theorem renderedPairs_mem (g : GoGroup) (p : Str × Str) :
    p ∈ renderedPairs g ↔ ∃ b ∈ g, ∃ e ∈ b.2, p = (goJoin b.1 e.1, e.2) := by
  unfold renderedPairs
  induction g with
  | nil => simp
  | cons b bs ih =>
    rw [List.foldr_cons]
    constructor
    · intro h
      rcases List.mem_append.mp h with h | h
      · obtain ⟨e, he, hp⟩ := List.mem_map.mp h
        exact ⟨b, List.mem_cons_self b bs, e, he, hp.symm⟩
      · obtain ⟨b0, hb0, e, he, hp⟩ := ih.mp h
        exact ⟨b0, List.mem_cons_of_mem b hb0, e, he, hp⟩
    · rintro ⟨b0, hb0, e, he, hp⟩
      rcases List.mem_cons.mp hb0 with rfl | hb0
      · exact List.mem_append_left _ (List.mem_map.mpr ⟨e, he, hp.symm⟩)
      · exact List.mem_append_right _ (ih.mpr ⟨b0, hb0, e, he, hp⟩)

theorem mapLookup_eq_none_iff (k : Str) :
    ∀ m : GoMap, mapLookup m k = none ↔ ∀ p ∈ m, p.1 ≠ k := by
  intro m
  induction m with
  | nil => simp [mapLookup]
  | cons p ps ih =>
    by_cases hp : (p.1 == k) = true
    · rw [mapLookup, if_pos hp]
      simp only [List.mem_cons]
      constructor
      · intro h; exact absurd h (by simp)
      · intro h
        exact absurd (show p.1 = k by simpa using hp) (h p (Or.inl rfl))
    · have hp2 : (p.1 == k) = false := by simpa using hp
      rw [mapLookup, if_neg (by simp [hp2])]
      rw [ih]
      constructor
      · intro h q hq
        rcases List.mem_cons.mp hq with rfl | hq
        · simpa using hp2
        · exact h q hq
      · intro h q hq
        exact h q (List.mem_cons_of_mem p hq)

theorem mapLookup_eq_some_of_mem :
    ∀ (m : GoMap), (m.map Prod.fst).Nodup →
      ∀ {k v : Str}, (k, v) ∈ m → mapLookup m k = some v := by
  intro m
  induction m with
  | nil => intro _ k v h; simp at h
  | cons p ps ih =>
    intro hnd k v h
    rcases List.nodup_cons.mp hnd with ⟨hp0, hndps⟩
    rcases List.mem_cons.mp h with rfl | hmem
    · rw [mapLookup, if_pos (by simp)]
    · have hne : (p.1 == k) = false := by
        simp only [beq_eq_false_iff_ne, ne_eq]
        intro hc
        exact hp0 (by rw [hc]; exact List.mem_map.mpr ⟨(k, v), hmem, rfl⟩)
      rw [mapLookup, if_neg (by simp [hne])]
      exact ih hndps hmem

theorem insertEntries_lookup_other (dir : Str) :
    ∀ (es : List (Str × Str)) (m : GoMap) (k : Str),
      (∀ e ∈ es, goJoin dir e.1 ≠ k) →
      mapLookup (insertEntries m dir es) k = mapLookup m k := by
  intro es
  induction es with
  | nil => intro m k _; rfl
  | cons e es ih =>
    intro m k h
    rw [show insertEntries m dir (e :: es)
        = insertEntries (mapInsert m (goJoin dir e.1) e.2) dir es from rfl,
      ih _ _ (fun x hx => h x (List.mem_cons_of_mem e hx)),
      mapLookup_insert,
      if_neg (fun hc => h e (List.mem_cons_self e es) hc.symm)]

theorem insertEntries_lookup_found (dir : Str) :
    ∀ (es : List (Str × Str)) (m : GoMap) (n s : Str),
      cleanDir dir → (∀ e ∈ es, plainName e.1) →
      (n, s) ∈ es → (es.map Prod.fst).Nodup →
      mapLookup (insertEntries m dir es) (goJoin dir n) = some s := by
  intro es
  induction es with
  | nil => intro m n s _ _ h _; simp at h
  | cons e es ih =>
    intro m n s hcd hplain h hnd
    rcases List.nodup_cons.mp hnd with ⟨he0, hndes⟩
    rcases List.mem_cons.mp h with rfl | hmem
    · rw [show insertEntries m dir ((n, s) :: es)
          = insertEntries (mapInsert m (goJoin dir n) s) dir es from rfl,
        insertEntries_lookup_other dir es _ _ ?_,
        mapLookup_insert, if_pos rfl]
      intro x hx hc
      apply he0
      show n ∈ List.map Prod.fst es
      rw [← goJoin_inj_right hcd (hplain x (List.mem_cons_of_mem _ hx))
        (show plainName n from hplain (n, s) (List.mem_cons_self _ _)) hc]
      exact List.mem_map.mpr ⟨x, hx, rfl⟩
    · rw [show insertEntries m dir (e :: es)
          = insertEntries (mapInsert m (goJoin dir e.1) e.2) dir es from rfl]
      exact ih _ n s hcd (fun x hx => hplain x (List.mem_cons_of_mem e hx))
        hmem hndes

theorem sections_foldl_lookup_other (g : GoGroup) :
    ∀ (ds : List Str) (m : GoMap) (k : Str),
      (∀ d ∈ ds, ∀ e ∈ sortEntries (lookupGroup g d), goJoin d e.1 ≠ k) →
      mapLookup
        (ds.foldl
          (fun m2 dir => insertEntries m2 dir (sortEntries (lookupGroup g dir))) m) k
      = mapLookup m k := by
  intro ds
  induction ds with
  | nil => intro m k _; rfl
  | cons d dt ih =>
    intro m k h
    rw [List.foldl_cons, ih _ _ (fun x hx => h x (List.mem_cons_of_mem d hx)),
      insertEntries_lookup_other d _ _ _ (h d (List.mem_cons_self d dt))]

theorem sections_foldl_lookup_found (g : GoGroup) {d n s : Str} :
    ∀ (ds : List Str) (m : GoMap),
      ds.Nodup → d ∈ ds →
      (n, s) ∈ sortEntries (lookupGroup g d) →
      cleanDir d →
      (∀ e ∈ sortEntries (lookupGroup g d), plainName e.1) →
      (∀ d2 ∈ ds, ((sortEntries (lookupGroup g d2)).map Prod.fst).Nodup) →
      (∀ d2 ∈ ds, ∀ e ∈ sortEntries (lookupGroup g d2),
        goJoin d2 e.1 = goJoin d n → d2 = d) →
      mapLookup
        (ds.foldl
          (fun m2 dir => insertEntries m2 dir (sortEntries (lookupGroup g dir))) m)
        (goJoin d n)
      = some s := by
  intro ds
  induction ds with
  | nil => intro m _ hd; simp at hd
  | cons d0 dt ih =>
    intro m hnd hd hmem hcd hplains hnames hdist
    rcases List.nodup_cons.mp hnd with ⟨hd0, hndt⟩
    rcases List.mem_cons.mp hd with rfl | hdt
    · rw [List.foldl_cons, sections_foldl_lookup_other g dt _ _ ?_,
        insertEntries_lookup_found d _ m n s hcd hplains hmem
          (hnames d (List.mem_cons_self d dt))]
      intro d2 hd2 e he hc
      exact hd0 ((hdist d2 (List.mem_cons_of_mem d hd2) e he hc) ▸ hd2)
    · rw [List.foldl_cons]
      exact ih _ hndt hdt hmem hcd hplains
        (fun x hx => hnames x (List.mem_cons_of_mem d0 hx))
        (fun x hx => hdist x (List.mem_cons_of_mem d0 hx))

theorem renderedPairs_keys_nodup :
    ∀ g : GoGroup, (g.map (fun b => b.1)).Nodup →
      (∀ b ∈ g, cleanDir b.1 ∧ (b.2.map Prod.fst).Nodup ∧
        ∀ e ∈ b.2, plainName e.1) →
      ((renderedPairs g).map Prod.fst).Nodup := by
  intro g
  induction g with
  | nil => intro _ _; simp [renderedPairs]
  | cons b bs ih =>
    intro hknd hbwf
    rw [List.map_cons] at hknd
    rcases List.nodup_cons.mp hknd with ⟨hb0, hndbs⟩
    rw [show renderedPairs (b :: bs)
        = b.2.map (fun e => (goJoin b.1 e.1, e.2)) ++ renderedPairs bs from rfl,
      List.map_append]
    obtain ⟨hcd, hnames, hplain⟩ := hbwf b (List.mem_cons_self b bs)
    refine List.Nodup.append ?_ ?_ ?_
    · rw [List.map_map,
        show (Prod.fst ∘ fun e : Str × Str => (goJoin b.1 e.1, e.2))
          = fun e : Str × Str => goJoin b.1 e.1 from rfl,
        show (fun e : Str × Str => goJoin b.1 e.1)
          = (goJoin b.1) ∘ Prod.fst from rfl,
        ← List.map_map]
      refine List.Nodup.map_on ?_ hnames
      intro x hx y hy hxy
      obtain ⟨ex, hex, rfl⟩ := List.mem_map.mp hx
      obtain ⟨ey, hey, rfl⟩ := List.mem_map.mp hy
      exact goJoin_inj_right hcd (hplain ex hex) (hplain ey hey) hxy
    · exact ih hndbs (fun b2 hb2 => hbwf b2 (List.mem_cons_of_mem b hb2))
    · intro k hk1 hk2
      rw [List.map_map] at hk1
      obtain ⟨e, he, hke⟩ := List.mem_map.mp hk1
      obtain ⟨p, hp, hkp⟩ := List.mem_map.mp hk2
      obtain ⟨b2, hb2, e2, he2, hpe⟩ := (renderedPairs_mem bs p).mp hp
      have hkeys : goJoin b.1 e.1 = goJoin b2.1 e2.1 := by
        rw [show goJoin b.1 e.1 = k from hke, ← hkp, hpe]
      have hwb2 := hbwf b2 (List.mem_cons_of_mem b hb2)
      obtain ⟨hbb, _⟩ := goJoin_inj hcd hwb2.1 (hplain e he)
        (hwb2.2.2 e2 he2) hkeys
      apply hb0
      show b.1 ∈ List.map (fun b => b.1) bs
      rw [hbb]
      exact List.mem_map.mpr ⟨b2, hb2, rfl⟩

theorem renderedPairs_lookup_found (g : GoGroup) (hwf : wfGroup g)
    {b : Str × List (Str × Str)} (hb : b ∈ g) {e : Str × Str} (he : e ∈ b.2) :
    mapLookup (renderedPairs g) (goJoin b.1 e.1) = some e.2 := by
  refine mapLookup_eq_some_of_mem _
    (renderedPairs_keys_nodup g hwf.1 ?_) ?_
  · intro b2 hb2
    obtain ⟨hwd, hnames, hents⟩ := hwf.2 b2 hb2
    exact ⟨hwd.2.2.2.2.2, hnames,
      fun e2 he2 => wfName_plain (hents e2 he2).1⟩
  · exact (renderedPairs_mem g _).mpr ⟨b, hb, e, he, rfl⟩

theorem roundTrip_found (g : GoGroup) (hwf : wfGroup g)
    {b : Str × List (Str × Str)} (hb : b ∈ g) {e : Str × Str} (he : e ∈ b.2) :
    mapLookup
      (parseSummaryLines (scanLines (writeMarkdownSummary g)))
      (goJoin b.1 e.1)
    = some e.2 := by
  rw [scanLines_writeMarkdownSummary g hwf,
    parse_writeMarkdownLines g (wfGroup_sorted_dirs g hwf)]
  have hds : b.1 ∈ sortStrs (g.map (fun x => x.1)) :=
    ((sortBy_perm strLe _).mem_iff).mpr (List.mem_map.mpr ⟨b, hb, rfl⟩)
  have hmem : (e.1, e.2) ∈ sortEntries (lookupGroup g b.1) := by
    rw [lookupGroup_self_of_nodup g hwf.1 b hb]
    exact ((sortBy_perm _ _).mem_iff).mpr (by simpa using he)
  refine sections_foldl_lookup_found g _ []
    (((sortBy_perm strLe _).nodup_iff).mpr hwf.1) hds hmem
    ((hwf.2 b hb).1.2.2.2.2.2)
    (fun e2 he2 => wfName_plain ((wfGroup_sorted_dirs g hwf b.1 hds).2 e2 he2).1)
    ?_ ?_
  · intro d2 hd2
    have hd2k : d2 ∈ g.map (fun x => x.1) := ((sortBy_perm strLe _).mem_iff).mp hd2
    obtain ⟨b2, hb2, hb2d⟩ := List.mem_map.mp hd2k
    have hb2d' : b2.1 = d2 := hb2d
    have hperm : ((sortEntries (lookupGroup g d2)).map Prod.fst).Perm
        (b2.2.map Prod.fst) := by
      rw [← hb2d', lookupGroup_self_of_nodup g hwf.1 b2 hb2]
      exact (sortBy_perm _ _).map _
    exact hperm.nodup_iff.mpr (hwf.2 b2 hb2).2.1
  · intro d2 hd2 e2 he2 hc
    have hw2 := wfGroup_sorted_dirs g hwf d2 hd2
    have hcd2 : cleanDir d2 := hw2.1.2.2.2.2.2
    have hn2 : plainName e2.1 := wfName_plain (hw2.2 e2 he2).1
    have hcd1 : cleanDir b.1 := (hwf.2 b hb).1.2.2.2.2.2
    have hn1 : plainName e.1 := wfName_plain ((hwf.2 b hb).2.2 e he).1
    exact (goJoin_inj hcd2 hcd1 hn2 hn1 hc).1

theorem roundTrip_missing (g : GoGroup) (hwf : wfGroup g) {k : Str}
    (hk : ¬ ∃ b ∈ g, ∃ e ∈ b.2, k = goJoin b.1 e.1) :
    mapLookup (parseSummaryLines (scanLines (writeMarkdownSummary g))) k = none := by
  rw [scanLines_writeMarkdownSummary g hwf,
    parse_writeMarkdownLines g (wfGroup_sorted_dirs g hwf)]
  rw [sections_foldl_lookup_other g _ [] k ?_]
  · rfl
  · intro d2 hd2 e2 he2 hc
    apply hk
    have hd2k : d2 ∈ g.map (fun x => x.1) := ((sortBy_perm strLe _).mem_iff).mp hd2
    obtain ⟨b2, hb2, hb2d⟩ := List.mem_map.mp hd2k
    have hb2d' : b2.1 = d2 := hb2d
    refine ⟨b2, hb2, e2, ?_, ?_⟩
    · have he2' : e2 ∈ sortEntries (lookupGroup g b2.1) := by
        rw [hb2d']
        exact he2
      rw [lookupGroup_self_of_nodup g hwf.1 b2 hb2] at he2'
      exact ((sortBy_perm _ _).mem_iff).mp he2'
    · rw [hb2d']
      exact hc.symm

/-- C3 counterexample: the round trip is NOT exact for every finite set of
pairs.  A file name containing `']'` (legal in a YAML file name) is
truncated by the parser at the first `']'` of the entry line: for the
single pair `("d/a]b.yaml", "S.")` the rendered report re-parses to a map
holding the key `"d/a"`, so looking up the rendered key `"d/a]b.yaml"`
gives `none` on the parsed side but `some "S."` on the rendered side. -/
theorem writeMarkdown_parse_roundTrip_cx :
    mapLookup (parseSummaryLines (scanLines (writeMarkdownSummary
        [(str "d", [(str "a]b.yaml", str "S.")])])))
      (str "d/a]b.yaml")
    ≠ mapLookup (renderedPairs [(str "d", [(str "a]b.yaml", str "S.")])])
      (str "d/a]b.yaml") := by
  decide

/-- C3: a report written by the Aggregator, when re-parsed by the
Existing-Summary Index, yields a mapping whose entries exactly match the
(relative-path → summary) pairs used to render it — amended with the
well-formedness the round trip in fact requires: distinct directory keys
and per-bucket file names; directories nonempty, free of newline, carriage
return, `']'` and `':'`, and in `filepath.Clean` normal form (`"."` or
plain `'/'`-separated components, as `filepath.Dir` produces on discovered
paths — an unclean key such as `"a//"` would be rewritten by the `Clean`
inside the parser's `filepath.Join` and could collide with another key);
names plain path components (nonempty, no `'/'`, not `"."` or `".."`) free
of the same special characters; and summaries newline/carriage-return-free
and already trimmed.  Under `wfGroup` the re-parsed mapping and the
rendered pairs agree at every key. -/
theorem writeMarkdown_parse_roundTrip (g : GoGroup) (hwf : wfGroup g) (k : Str) :
    mapLookup (parseSummaryLines (scanLines (writeMarkdownSummary g))) k
      = mapLookup (renderedPairs g) k := by
  by_cases hk : ∃ b ∈ g, ∃ e ∈ b.2, k = goJoin b.1 e.1
  · obtain ⟨b, hb, e, he, rfl⟩ := hk
    rw [roundTrip_found g hwf hb he, renderedPairs_lookup_found g hwf hb he]
  · have h2 : mapLookup (renderedPairs g) k = none := by
      refine (mapLookup_eq_none_iff k _).mpr ?_
      intro p hp hpk
      obtain ⟨b, hb, e, he, hpe⟩ := (renderedPairs_mem g p).mp hp
      apply hk
      refine ⟨b, hb, e, he, ?_⟩
      rw [← hpk, hpe]
    rw [roundTrip_missing g hwf hk, h2]

set_option synthInstance.maxSize 2000

set_option synthInstance.maxHeartbeats 1000000

/-- Witness for C3: the amended round trip at a concrete two-directory
input (including a top-level `"."` bucket), looked up at a rendered key. -/
theorem writeMarkdown_parse_roundTrip_witness :
    wfGroup [(str "d", [(str "a.yaml", str "S.")]),
             (str ".", [(str "b.yaml", str "T.")])] ∧
    mapLookup (parseSummaryLines (scanLines (writeMarkdownSummary
        [(str "d", [(str "a.yaml", str "S.")]),
         (str ".", [(str "b.yaml", str "T.")])])))
      (str "d/a.yaml")
    = mapLookup (renderedPairs
        [(str "d", [(str "a.yaml", str "S.")]),
         (str ".", [(str "b.yaml", str "T.")])])
      (str "d/a.yaml") :=
  ⟨by decide, writeMarkdown_parse_roundTrip _ (by decide) _⟩
